import Mathlib

/-!
Verification of the FlatCrawl core: the URL validation / normalization /
deduplication engine (src/utils/helpers.ts, src/scraper/extractor.ts) and
the CSV record store (src/storage/csv.ts).

URL strings are modelled as lists of characters.  The WHATWG URL parser
used by the code (the platform class URL together with URLSearchParams) is
embedded as an executable parser over scheme, authority, path, query and
fragment.  The embedding keeps the behaviours the core logic depends on:
scheme and special-scheme host lower-casing, slash skipping after a special
scheme, the default "/" path for special schemes, raw query preservation
until a search-parameter mutation, re-serialization of the remaining
parameters on deletion (dropping the "?" when none remain), and acceptance
of non-special schemes without any host.  Percent-encoding and IDNA host
encoding are modelled as the identity, and the file scheme is treated as a
non-special scheme; none of the verified properties depend on those.

Two further behaviours of the platform constructor are outside the
embedding: the input preprocessing that removes leading and trailing C0
controls and spaces and strips internal tabulation and newline characters,
and the validation of special-scheme hosts and ports (forbidden host code
points, digit-only ports, IDNA and IPv4 processing).  The embedded parser
accepts any nonempty special-scheme host segment.  The one statement that
characterizes the exact acceptance set therefore carries a hypothesis
restricting candidates to printable ASCII without spaces and to plainly
alphabetic hosts, a domain on which both preprocessing and host validation
are inert and the embedding and the platform parser agree.
-/

namespace FlatCrawl

/-- Join character lists with a separator character between them. -/
def joinSep (sep : Char) : List (List Char) → List Char
  | [] => []
  | [p] => p
  | p :: q :: ps => p ++ sep :: joinSep sep (q :: ps)

/-- Split a character list at every occurrence of a separator character. -/
def splitSep (sep : Char) : List Char → List (List Char)
  | [] => [[]]
  | c :: rest =>
    if c = sep then [] :: splitSep sep rest
    else
      match splitSep sep rest with
      | [] => [[c]]
      | h :: t => (c :: h) :: t

/-- ASCII lower-casing of one character, as the URL parser applies to
schemes and special-scheme hosts. -/
def lowerChar (c : Char) : Char :=
  if 65 ≤ c.toNat ∧ c.toNat ≤ 90 then Char.ofNat (c.toNat + 32) else c

/-- First character of a URL scheme: an ASCII letter. -/
def isSchemeStart (c : Char) : Bool :=
  decide ((65 ≤ c.toNat ∧ c.toNat ≤ 90) ∨ (97 ≤ c.toNat ∧ c.toNat ≤ 122))

/-- Subsequent characters of a URL scheme: ASCII alphanumeric or one of
plus, minus, dot. -/
def isSchemeChar (c : Char) : Bool :=
  isSchemeStart c || decide (48 ≤ c.toNat ∧ c.toNat ≤ 57) ||
    decide (c = '+') || decide (c = '-') || decide (c = '.')

/-- Forward or backward slash, both skipped after a special scheme. -/
def isSlash (c : Char) : Bool :=
  decide (c = '/') || decide (c = '\\')

/-- Characters terminating the host of a special-scheme URL. -/
def isHostEnd (c : Char) : Bool :=
  decide (c = '/') || decide (c = '\\') || decide (c = '?') || decide (c = '#')

/-- Characters terminating the host of a non-special URL with authority. -/
def isHostEndNS (c : Char) : Bool :=
  decide (c = '/') || decide (c = '?') || decide (c = '#')

/-- Characters terminating a path: start of query or fragment. -/
def isPathEnd (c : Char) : Bool :=
  decide (c = '?') || decide (c = '#')

/-- The special schemes of the WHATWG URL standard that require an
authority with a nonempty host (file is modelled as non-special). -/
def isSpecialScheme (s : List Char) : Bool :=
  decide (s = "http".data ∨ s = "https".data ∨ s = "ws".data ∨
    s = "wss".data ∨ s = "ftp".data)

/-- Parsed URL object: the components of the platform URL class that the
core logic observes.  The query is kept raw, exactly as the URL class keeps
the original query string until a search-parameter mutation re-serializes
it. -/
structure UrlObj where
  scheme : List Char
  host : Option (List Char)
  path : List Char
  query : Option (List Char)
  fragment : Option (List Char)
deriving DecidableEq

/-- Split the part after the path into query and fragment. -/
def parseQF (rest : List Char) : Option (List Char) × Option (List Char) :=
  match rest with
  | [] => (none, none)
  | c :: r =>
    if c = '?' then
      (some (r.takeWhile (fun d => !decide (d = '#'))),
       match r.dropWhile (fun d => !decide (d = '#')) with
       | _ :: f => some f
       | [] => none)
    else if c = '#' then (none, some r)
    else (none, none)

/-- Parse of a URL without an authority: everything up to the query or
fragment is the (opaque) path. -/
def parseNoAuth (scheme rest : List Char) : UrlObj :=
  ⟨scheme, none, rest.takeWhile (fun c => !isPathEnd c),
   (parseQF (rest.dropWhile (fun c => !isPathEnd c))).1,
   (parseQF (rest.dropWhile (fun c => !isPathEnd c))).2⟩

/-- Parse of a non-special URL after a double slash: host up to a
delimiter, then path, query, fragment. -/
def parseAuthNS (scheme rest1 : List Char) : UrlObj :=
  let rest2 := rest1.dropWhile (fun c => !isHostEndNS c)
  ⟨scheme, some (rest1.takeWhile (fun c => !isHostEndNS c)),
   rest2.takeWhile (fun c => !isPathEnd c),
   (parseQF (rest2.dropWhile (fun c => !isPathEnd c))).1,
   (parseQF (rest2.dropWhile (fun c => !isPathEnd c))).2⟩

/-- Parse of a non-special URL after the scheme: an authority is present
exactly when a double slash follows the colon. -/
def parseNS (scheme rest : List Char) : UrlObj :=
  match rest with
  | c1 :: c2 :: rest1 =>
    if c1 = '/' ∧ c2 = '/' then parseAuthNS scheme rest1
    else parseNoAuth scheme rest
  | _ => parseNoAuth scheme rest

/-- Parse what follows the scheme and its colon. -/
def parseAfterScheme (scheme rest : List Char) : Option UrlObj :=
  if isSpecialScheme scheme then
    let rest1 := rest.dropWhile isSlash
    let host := rest1.takeWhile (fun c => !isHostEnd c)
    if host.isEmpty then none
    else
      let rest2 := rest1.dropWhile (fun c => !isHostEnd c)
      let path0 := rest2.takeWhile (fun c => !isPathEnd c)
      let path := if path0.isEmpty then ['/'] else path0
      let qf := parseQF (rest2.dropWhile (fun c => !isPathEnd c))
      some ⟨scheme, some (host.map lowerChar), path, qf.1, qf.2⟩
  else some (parseNS scheme rest)

/-- Continuation of URL parsing once the leading scheme characters have
been dropped: a colon must follow. -/
def parseSchemeRest (c : Char) (rest dropped : List Char) : Option UrlObj :=
  match dropped with
  | d :: rest2 =>
    if d = ':' then
      parseAfterScheme ((c :: rest.takeWhile isSchemeChar).map lowerChar) rest2
    else none
  | [] => none

/-- Embedding of the platform URL constructor: parse an absolute URL,
failing (the constructor throwing) when no valid scheme is present or a
special scheme lacks a host. -/
def parseUrl (s : List Char) : Option UrlObj :=
  match s with
  | [] => none
  | c :: rest =>
    if isSchemeStart c then parseSchemeRest c rest (rest.dropWhile isSchemeChar)
    else none

/-- Serialized authority part of a URL object. -/
def hostChars : Option (List Char) → List Char
  | some h => '/' :: '/' :: h
  | none => []

/-- Serialized query and fragment part of a URL object. -/
def qfChars (q f : Option (List Char)) : List Char :=
  (match q with
   | some q => '?' :: q
   | none => []) ++
  (match f with
   | some f => '#' :: f
   | none => [])

/-- Embedding of URL.toString. -/
def serializeUrl (u : UrlObj) : List Char :=
  u.scheme ++ ':' :: (hostChars u.host ++ (u.path ++ qfChars u.query u.fragment))

/-- One piece of a query: name up to the first equals sign, value after. -/
def pairOfPiece (piece : List Char) : List Char × List Char :=
  (piece.takeWhile (fun c => !decide (c = '=')),
   match piece.dropWhile (fun c => !decide (c = '=')) with
   | _ :: v => v
   | [] => [])

/-- Embedding of URLSearchParams parsing of a raw query string: split on
ampersands, skip empty pieces, split each piece at its first equals sign
(with percent-decoding modelled as the identity). -/
def parsePairs (q : List Char) : List (List Char × List Char) :=
  ((splitSep '&' q).filter (fun p => !p.isEmpty)).map pairOfPiece

/-- Embedding of URLSearchParams serialization. -/
def serializePairs (ps : List (List Char × List Char)) : List Char :=
  joinSep '&' (ps.map (fun kv => kv.1 ++ '=' :: kv.2))

/-- Embedding of URLSearchParams.has on the raw query of a URL object. -/
def hasParam (q : Option (List Char)) (p : List Char) : Bool :=
  match q with
  | none => false
  | some s => (parsePairs s).any (fun kv => decide (kv.1 = p))

/-- One iteration of the parameter-removal loop of
UrlExtractor.normalizeUrl: if the search parameters contain the name, it
is deleted and the query re-serialized (null when no parameter remains,
which drops the question mark); otherwise the raw query is untouched. -/
def removeParamStep (q : Option (List Char)) (p : List Char) : Option (List Char) :=
  match q with
  | none => none
  | some s =>
    if (parsePairs s).any (fun kv => decide (kv.1 = p)) then
      let ps2 := (parsePairs s).filter (fun kv => !decide (kv.1 = p))
      if ps2.isEmpty then none else some (serializePairs ps2)
    else some s

/-- Embedding of isValidUrl from src/utils/helpers.ts: the URL constructor
succeeds, any parse failure collapses to false. -/
def isValidUrl (url : String) : Bool :=
  (parseUrl url.data).isSome

/-- Embedding of UrlExtractor.normalizeUrl on character lists: parse,
delete each configured parameter that is present, re-serialize; a parse
failure returns the original string. -/
def normalizeUrlChars (s : List Char) (ps : List (List Char)) : List Char :=
  match parseUrl s with
  | none => s
  | some u => serializeUrl { u with query := ps.foldl removeParamStep u.query }

/-- Embedding of UrlExtractor.normalizeUrl from src/scraper/extractor.ts:
identity when there is nothing to remove or the URL is invalid, and the
try/catch guarantees the original string on any parse failure. -/
def normalizeUrl (url : String) (paramsToRemove : List String) : String :=
  if paramsToRemove.length = 0 || !isValidUrl url then url
  else String.mk (normalizeUrlChars url.data (paramsToRemove.map String.data))

/-- Embedding of UrlExtractor.filterNewUrls from src/scraper/extractor.ts.
The platform Set of existing URLs is modelled as a list with membership
semantics. -/
def filterNewUrls (urls : List String) (existingUrls : List String)
    (paramsToRemove : List String) : List String :=
  if paramsToRemove.length = 0 then
    urls.filter (fun url => !existingUrls.contains url)
  else
    let normalizedExistingUrls := existingUrls.map (fun url => normalizeUrl url paramsToRemove)
    urls.filter (fun url => !normalizedExistingUrls.contains (normalizeUrl url paramsToRemove))

/-- Embedding of UrlExtractor.filterValidUrls. -/
def filterValidUrls (urls : List String) : List String :=
  urls.filter (fun url => isValidUrl url)

/-! ### Character lemmas -/

theorem toNat_ofNat_of_valid (n : Nat) (h : n.isValidChar) : (Char.ofNat n).toNat = n := by
  unfold Char.ofNat
  rw [dif_pos h]
  unfold Char.ofNatAux Char.toNat
  rfl

theorem lowerChar_toNat {c : Char} (h1 : 65 ≤ c.toNat) (h2 : c.toNat ≤ 90) :
    (lowerChar c).toNat = c.toNat + 32 := by
  unfold lowerChar
  rw [if_pos ⟨h1, h2⟩]
  exact toNat_ofNat_of_valid _ (Or.inl (by omega))

theorem lowerChar_eq_self {c : Char} (h : ¬(65 ≤ c.toNat ∧ c.toNat ≤ 90)) :
    lowerChar c = c := by
  unfold lowerChar
  rw [if_neg h]

/-- Either lower-casing fixes a character, or it produces an ASCII
lowercase letter. -/
theorem lowerChar_cases (c : Char) :
    lowerChar c = c ∨ (97 ≤ (lowerChar c).toNat ∧ (lowerChar c).toNat ≤ 122) := by
  by_cases h : 65 ≤ c.toNat ∧ c.toNat ≤ 90
  · right
    rw [lowerChar_toNat h.1 h.2]
    omega
  · left
    exact lowerChar_eq_self h

theorem lowerChar_idem (c : Char) : lowerChar (lowerChar c) = lowerChar c := by
  by_cases h : 65 ≤ c.toNat ∧ c.toNat ≤ 90
  · have ht : (lowerChar c).toNat = c.toNat + 32 := lowerChar_toNat h.1 h.2
    exact lowerChar_eq_self (by omega)
  · rw [lowerChar_eq_self h, lowerChar_eq_self h]

theorem isSchemeStart_of_lower_range {c : Char} (h1 : 97 ≤ c.toNat) (h2 : c.toNat ≤ 122) :
    isSchemeStart c = true := by
  unfold isSchemeStart
  exact decide_eq_true (Or.inr ⟨h1, h2⟩)

theorem isHostEnd_eq_false_of_lower_range {c : Char} (h1 : 97 ≤ c.toNat) (h2 : c.toNat ≤ 122) :
    isHostEnd c = false := by
  have d1 : c ≠ '/' := by rintro rfl; exact absurd h1 (by decide)
  have d2 : c ≠ '\\' := by rintro rfl; exact absurd h1 (by decide)
  have d3 : c ≠ '?' := by rintro rfl; exact absurd h1 (by decide)
  have d4 : c ≠ '#' := by rintro rfl; exact absurd h1 (by decide)
  simp [isHostEnd, d1, d2, d3, d4]

theorem isSchemeStart_lowerChar {c : Char} (h : isSchemeStart c = true) :
    isSchemeStart (lowerChar c) = true := by
  rcases lowerChar_cases c with he | hr
  · rwa [he]
  · exact isSchemeStart_of_lower_range hr.1 hr.2

theorem isSchemeChar_lowerChar {c : Char} (h : isSchemeChar c = true) :
    isSchemeChar (lowerChar c) = true := by
  rcases lowerChar_cases c with he | hr
  · rwa [he]
  · unfold isSchemeChar
    rw [isSchemeStart_of_lower_range hr.1 hr.2]
    rfl

theorem isHostEnd_lowerChar {c : Char} (h : isHostEnd c = false) :
    isHostEnd (lowerChar c) = false := by
  rcases lowerChar_cases c with he | hr
  · rwa [he]
  · exact isHostEnd_eq_false_of_lower_range hr.1 hr.2

theorem isSlash_eq_false_of_isHostEnd {c : Char} (h : isHostEnd c = false) :
    isSlash c = false := by
  unfold isHostEnd at h
  unfold isSlash
  rcases Bool.or_eq_false_iff.mp h with ⟨h3, _⟩
  rcases Bool.or_eq_false_iff.mp h3 with ⟨h5, _⟩
  rcases Bool.or_eq_false_iff.mp h5 with ⟨h1, h2⟩
  rw [h1, h2]
  rfl

/-! ### Take, drop and split lemmas -/

theorem takeWhile_append_all {p : Char → Bool} {l1 : List Char} (l2 : List Char)
    (h : ∀ a ∈ l1, p a = true) :
    (l1 ++ l2).takeWhile p = l1 ++ l2.takeWhile p := by
  induction l1 with
  | nil => rfl
  | cons a t ih =>
    have ha := h a (by simp)
    have ht := ih (fun a ha2 => h a (by simp [ha2]))
    simp [List.takeWhile_cons, ha, ht]

theorem dropWhile_append_all {p : Char → Bool} {l1 : List Char} (l2 : List Char)
    (h : ∀ a ∈ l1, p a = true) :
    (l1 ++ l2).dropWhile p = l2.dropWhile p := by
  induction l1 with
  | nil => rfl
  | cons a t ih =>
    have ha := h a (by simp)
    have ht := ih (fun a ha2 => h a (by simp [ha2]))
    simp [List.dropWhile_cons, ha, ht]

theorem takeWhile_cons_false {p : Char → Bool} {a : Char} (l : List Char)
    (h : p a = false) : (a :: l).takeWhile p = [] := by
  simp [List.takeWhile_cons, h]

theorem dropWhile_cons_false {p : Char → Bool} {a : Char} (l : List Char)
    (h : p a = false) : (a :: l).dropWhile p = a :: l := by
  simp [List.dropWhile_cons, h]

theorem dropWhile_head_false {p : Char → Bool} {l t : List Char} {a : Char}
    (h : l.dropWhile p = a :: t) : p a = false := by
  induction l with
  | nil => simp at h
  | cons b bs ih =>
    rw [List.dropWhile_cons] at h
    by_cases hb : p b = true
    · rw [if_pos hb] at h
      exact ih h
    · rw [if_neg hb] at h
      cases h
      exact Bool.eq_false_iff.mpr hb

theorem splitSep_ne_nil (sep : Char) (l : List Char) : splitSep sep l ≠ [] := by
  cases l with
  | nil => simp [splitSep]
  | cons c rest =>
    unfold splitSep
    by_cases h : c = sep
    · simp [h]
    · rw [if_neg h]
      cases splitSep sep rest <;> simp

theorem splitSep_cons_ne {sep c : Char} (rest : List Char) (h : c ≠ sep) :
    splitSep sep (c :: rest) =
      (c :: (splitSep sep rest).headI) :: (splitSep sep rest).tail := by
  rcases he : splitSep sep rest with _ | ⟨hd, tl⟩
  · exact absurd he (splitSep_ne_nil sep rest)
  · simp only [splitSep]
    rw [if_neg h, he]
    rfl

theorem splitSep_sep_free {sep : Char} {l : List Char} (h : sep ∉ l) :
    splitSep sep l = [l] := by
  induction l with
  | nil => rfl
  | cons c rest ih =>
    have hc : c ≠ sep := fun he => h (by simp [he])
    rw [splitSep_cons_ne rest hc, ih (fun hm => h (by simp [hm]))]
    rfl

theorem splitSep_append {sep : Char} {p : List Char} (rest : List Char) (h : sep ∉ p) :
    splitSep sep (p ++ sep :: rest) = p :: splitSep sep rest := by
  induction p with
  | nil => simp [splitSep]
  | cons c t ih =>
    have hc : c ≠ sep := fun he => h (by simp [he])
    rw [List.cons_append, splitSep_cons_ne _ hc, ih (fun hm => h (by simp [hm]))]
    rfl

theorem splitSep_joinSep {sep : Char} {pieces : List (List Char)} (h0 : pieces ≠ [])
    (h : ∀ p ∈ pieces, sep ∉ p) :
    splitSep sep (joinSep sep pieces) = pieces := by
  induction pieces with
  | nil => exact absurd rfl h0
  | cons p ps ih =>
    cases ps with
    | nil =>
      show splitSep sep p = [p]
      exact splitSep_sep_free (h p (by simp))
    | cons q qs =>
      show splitSep sep (p ++ sep :: joinSep sep (q :: qs)) = p :: q :: qs
      rw [splitSep_append _ (h p (by simp))]
      rw [ih (by simp) (fun r hr => h r (by simp [hr]))]

theorem mem_of_mem_splitSep {sep : Char} {l : List Char} :
    ∀ {p : List Char}, p ∈ splitSep sep l → ∀ {c : Char}, c ∈ p → c ∈ l ∧ c ≠ sep := by
  induction l with
  | nil =>
    intro p hp c hc
    simp [splitSep] at hp
    subst hp
    simp at hc
  | cons b bs ih =>
    intro p hp c hc
    by_cases hb : b = sep
    · rw [show splitSep sep (b :: bs) = [] :: splitSep sep bs by simp [splitSep, hb]] at hp
      rcases List.mem_cons.mp hp with he | hm
      · subst he; simp at hc
      · have h2 := ih hm hc
        exact ⟨List.mem_cons.mpr (Or.inr h2.1), h2.2⟩
    · rw [splitSep_cons_ne bs hb] at hp
      rcases he : splitSep sep bs with _ | ⟨hd, tl⟩
      · exact absurd he (splitSep_ne_nil sep bs)
      rw [he] at hp
      simp only [List.headI, List.tail] at hp
      rcases List.mem_cons.mp hp with he2 | hm
      · subst he2
        rcases List.mem_cons.mp hc with he3 | hm3
        · exact ⟨List.mem_cons.mpr (Or.inl he3), by rw [he3]; exact hb⟩
        · have hmem : hd ∈ splitSep sep bs := by
            rw [he]
            exact List.mem_cons_self hd tl
          have h2 := ih hmem hm3
          exact ⟨List.mem_cons.mpr (Or.inr h2.1), h2.2⟩
      · have hmem : p ∈ splitSep sep bs := by
          rw [he]
          exact List.mem_cons.mpr (Or.inr hm)
        have h2 := ih hmem hc
        exact ⟨List.mem_cons.mpr (Or.inr h2.1), h2.2⟩

theorem mem_of_mem_joinSep {sep : Char} {pieces : List (List Char)} {c : Char}
    (hc : c ∈ joinSep sep pieces) : c = sep ∨ ∃ p ∈ pieces, c ∈ p := by
  induction pieces with
  | nil => simp [joinSep] at hc
  | cons p ps ih =>
    cases ps with
    | nil =>
      right
      exact ⟨p, by simp, hc⟩
    | cons q qs =>
      rcases List.mem_append.mp hc with hm | hm
      · right; exact ⟨p, by simp, hm⟩
      · rcases List.mem_cons.mp hm with he | hm2
        · left; exact he
        · rcases ih hm2 with he | ⟨r, hr, hcr⟩
          · left; exact he
          · right; exact ⟨r, by simp [List.mem_cons.mp hr], hcr⟩

/-! ### Search-parameter lemmas -/

/-- Well-formedness of a parameter list: names are free of ampersand and
equals sign, values free of ampersand.  Every list produced by parsePairs
satisfies this. -/
def PairsOk (ps : List (List Char × List Char)) : Prop :=
  ∀ kv ∈ ps, '&' ∉ kv.1 ∧ '=' ∉ kv.1 ∧ '&' ∉ kv.2

theorem pairOfPiece_eq {k : List Char} (v : List Char) (hk : '=' ∉ k) :
    pairOfPiece (k ++ '=' :: v) = (k, v) := by
  unfold pairOfPiece
  have hall : ∀ a ∈ k, (fun c => !decide (c = '=')) a = true := by
    intro a ha
    simp only [Bool.not_eq_true']
    exact decide_eq_false (fun he => hk (he ▸ ha))
  rw [takeWhile_append_all _ hall, dropWhile_append_all _ hall]
  rw [takeWhile_cons_false _ (by simp), dropWhile_cons_false _ (by simp)]
  simp

theorem mem_pairOfPiece_fst {piece : List Char} {c : Char}
    (h : c ∈ (pairOfPiece piece).1) : c ∈ piece ∧ c ≠ '=' := by
  refine ⟨(List.takeWhile_sublist _).subset h, ?_⟩
  have := List.mem_takeWhile_imp h
  simpa using this

theorem mem_pairOfPiece_snd {piece : List Char} {c : Char}
    (h : c ∈ (pairOfPiece piece).2) : c ∈ piece := by
  unfold pairOfPiece at h
  rcases hd : piece.dropWhile (fun c => !decide (c = '=')) with _ | ⟨a, v⟩
  · rw [hd] at h
    simp at h
  · rw [hd] at h
    have : c ∈ a :: v := List.mem_cons.mpr (Or.inr h)
    exact (List.dropWhile_sublist _).subset (hd ▸ this)

theorem mem_parsePairs_chars {s : List Char} {kv : List Char × List Char} {c : Char}
    (hkv : kv ∈ parsePairs s) (hc : c ∈ kv.1 ∨ c ∈ kv.2) : c ∈ s ∧ c ≠ '&' := by
  unfold parsePairs at hkv
  rcases List.mem_map.mp hkv with ⟨piece, hpm, hpe⟩
  have hps : piece ∈ splitSep '&' s := List.mem_of_mem_filter hpm
  have hcp : c ∈ piece := by
    rcases hc with h1 | h2
    · exact (mem_pairOfPiece_fst (hpe ▸ h1)).1
    · exact mem_pairOfPiece_snd (hpe ▸ h2)
  exact mem_of_mem_splitSep hps hcp

theorem parsePairs_wf (s : List Char) : PairsOk (parsePairs s) := by
  intro kv hkv
  refine ⟨?_, ?_, ?_⟩
  · intro hc
    exact (mem_parsePairs_chars hkv (Or.inl hc)).2 rfl
  · intro hc
    unfold parsePairs at hkv
    rcases List.mem_map.mp hkv with ⟨piece, _, hpe⟩
    exact (mem_pairOfPiece_fst (hpe ▸ hc)).2 rfl
  · intro hc
    exact (mem_parsePairs_chars hkv (Or.inr hc)).2 rfl

theorem parsePairs_serializePairs {ps : List (List Char × List Char)} (h : PairsOk ps) :
    parsePairs (serializePairs ps) = ps := by
  cases ps with
  | nil => rfl
  | cons kv0 tl =>
    unfold parsePairs serializePairs
    rw [splitSep_joinSep (by simp) ?ampfree]
    case ampfree =>
      intro p hp hc
      rcases List.mem_map.mp hp with ⟨kv, hkv, hpe⟩
      rcases h kv hkv with ⟨h1, _, h3⟩
      subst hpe
      rcases List.mem_append.mp hc with hm | hm
      · exact h1 hm
      · rcases List.mem_cons.mp hm with he | hm2
        · exact absurd he (by decide)
        · exact h3 hm2
    rw [List.filter_eq_self.mpr ?nonempty]
    case nonempty =>
      intro p hp
      rcases List.mem_map.mp hp with ⟨kv, _, hpe⟩
      subst hpe
      simp
    rw [List.map_map]
    have : ∀ kv ∈ kv0 :: tl, (pairOfPiece ∘ fun kv => kv.1 ++ '=' :: kv.2) kv = id kv := by
      intro kv hkv
      have := pairOfPiece_eq kv.2 (h kv hkv).2.1
      simpa using this
    rw [List.map_congr_left this, List.map_id]

theorem pairsOk_filter {ps : List (List Char × List Char)} (f : List Char × List Char → Bool)
    (h : PairsOk ps) : PairsOk (ps.filter f) :=
  fun kv hkv => h kv (List.mem_of_mem_filter hkv)

theorem hasParam_serializePairs {ps : List (List Char × List Char)} (p : List Char)
    (h : PairsOk ps) :
    hasParam (some (serializePairs ps)) p = ps.any (fun kv => decide (kv.1 = p)) := by
  show (parsePairs (serializePairs ps)).any (fun kv => decide (kv.1 = p)) = _
  rw [parsePairs_serializePairs h]

theorem removeParamStep_fresh (q : Option (List Char)) (p : List Char) :
    hasParam (removeParamStep q p) p = false := by
  cases q with
  | none => rfl
  | some s =>
    simp only [removeParamStep]
    by_cases hany : (parsePairs s).any (fun kv => decide (kv.1 = p)) = true
    · rw [if_pos hany]
      by_cases hemp : ((parsePairs s).filter (fun kv => !decide (kv.1 = p))).isEmpty = true
      · simp only [hemp, if_true]
        rfl
      · simp only [hemp, if_false]
        rw [if_neg Bool.false_ne_true]
        rw [hasParam_serializePairs p (pairsOk_filter _ (parsePairs_wf s))]
        rw [List.any_eq_false]
        intro kv hkv
        have := List.of_mem_filter hkv
        simpa using this
    · rw [if_neg hany]
      show (parsePairs s).any (fun kv => decide (kv.1 = p)) = false
      exact Bool.eq_false_iff.mpr hany

theorem removeParamStep_preserves {q : Option (List Char)} {r : List Char} (p : List Char)
    (h : hasParam q r = false) : hasParam (removeParamStep q p) r = false := by
  cases q with
  | none => rfl
  | some s =>
    simp only [removeParamStep]
    by_cases hany : (parsePairs s).any (fun kv => decide (kv.1 = p)) = true
    · rw [if_pos hany]
      by_cases hemp : ((parsePairs s).filter (fun kv => !decide (kv.1 = p))).isEmpty = true
      · simp only [hemp, if_true]
        rfl
      · simp only [hemp, if_false]
        rw [if_neg Bool.false_ne_true]
        rw [hasParam_serializePairs r (pairsOk_filter _ (parsePairs_wf s))]
        rw [List.any_eq_false]
        intro kv hkv
        have h2 : ((parsePairs s).any (fun kv => decide (kv.1 = r))) = false := h
        rw [List.any_eq_false] at h2
        exact h2 kv (List.mem_of_mem_filter hkv)
    · rw [if_neg hany]
      exact h

theorem foldl_removeParam_preserves {P : List (List Char)} {q : Option (List Char)}
    {r : List Char} (h : hasParam q r = false) :
    hasParam (P.foldl removeParamStep q) r = false := by
  induction P generalizing q with
  | nil => exact h
  | cons p0 P ih => exact ih (removeParamStep_preserves p0 h)

theorem foldl_removeParam_fresh {P : List (List Char)} {q : Option (List Char)} :
    ∀ p ∈ P, hasParam (P.foldl removeParamStep q) p = false := by
  induction P generalizing q with
  | nil => simp
  | cons p0 P ih =>
    intro p hp
    rcases List.mem_cons.mp hp with he | hm
    · subst he
      show hasParam (P.foldl removeParamStep (removeParamStep q p)) p = false
      exact foldl_removeParam_preserves (removeParamStep_fresh q p)
    · exact ih p hm

theorem removeParamStep_id_of_fresh {q : Option (List Char)} {p : List Char}
    (h : hasParam q p = false) : removeParamStep q p = q := by
  cases q with
  | none => rfl
  | some s =>
    simp only [removeParamStep]
    have h2 : ((parsePairs s).any (fun kv => decide (kv.1 = p))) = false := h
    rw [if_neg (by rw [h2]; simp)]

theorem foldl_removeParam_id {P : List (List Char)} {q : Option (List Char)}
    (h : ∀ p ∈ P, hasParam q p = false) : P.foldl removeParamStep q = q := by
  induction P with
  | nil => rfl
  | cons p0 P ih =>
    show P.foldl removeParamStep (removeParamStep q p0) = q
    rw [removeParamStep_id_of_fresh (h p0 (by simp))]
    exact ih (fun p hp => h p (by simp [hp]))

/-- The query component never contains a hash character. -/
def QueryOk : Option (List Char) → Prop
  | none => True
  | some q => '#' ∉ q

theorem queryOk_removeParamStep {q : Option (List Char)} (p : List Char)
    (h : QueryOk q) : QueryOk (removeParamStep q p) := by
  cases q with
  | none => trivial
  | some s =>
    simp only [removeParamStep]
    by_cases hany : (parsePairs s).any (fun kv => decide (kv.1 = p)) = true
    · rw [if_pos hany]
      by_cases hemp : ((parsePairs s).filter (fun kv => !decide (kv.1 = p))).isEmpty = true
      · simp only [hemp, if_true]
        trivial
      · simp only [hemp, if_false]
        show '#' ∉ serializePairs _
        intro hmem
        rcases mem_of_mem_joinSep hmem with he | ⟨piece, hpm, hcp⟩
        · exact absurd he (by decide)
        · rcases List.mem_map.mp hpm with ⟨kv, hkv, hpe⟩
          subst hpe
          have hkv2 : kv ∈ parsePairs s := List.mem_of_mem_filter hkv
          rcases List.mem_append.mp hcp with hm | hm
          · exact h ((mem_parsePairs_chars hkv2 (Or.inl hm)).1)
          · rcases List.mem_cons.mp hm with he2 | hm2
            · exact absurd he2 (by decide)
            · exact h ((mem_parsePairs_chars hkv2 (Or.inr hm2)).1)
    · rw [if_neg hany]
      exact h

theorem queryOk_foldl {P : List (List Char)} {q : Option (List Char)}
    (h : QueryOk q) : QueryOk (P.foldl removeParamStep q) := by
  induction P generalizing q with
  | nil => exact h
  | cons p0 P ih => exact ih (queryOk_removeParamStep p0 h)

/-! ### Well-formed URL objects -/

/-- A valid scheme: a letter followed by scheme characters. -/
def SchemeOk (s : List Char) : Prop :=
  ∃ c cs, s = c :: cs ∧ isSchemeStart c = true ∧ ∀ d ∈ cs, isSchemeChar d = true

/-- A character list fixed by lower-casing. -/
def Lowered (s : List Char) : Prop := ∀ c ∈ s, lowerChar c = c

/-- A character list that does not begin with a double slash. -/
def NotTwoSlashes (l : List Char) : Prop := ∀ t, l ≠ '/' :: '/' :: t

/-- Invariants of the authority and path of a parsed special-scheme URL. -/
def SpecialPartsWF (u : UrlObj) : Prop :=
  ∃ h, u.host = some h ∧ h ≠ [] ∧ (∀ c ∈ h, isHostEnd c = false ∧ lowerChar c = c) ∧
    (∀ c ∈ u.path, isPathEnd c = false) ∧
    (∃ p ps, u.path = p :: ps ∧ isHostEnd p = true)

/-- Invariants of the authority and path of a parsed non-special URL. -/
def NSPartsWF (u : UrlObj) : Prop :=
  (∀ c ∈ u.path, isPathEnd c = false) ∧
  ((u.host = none ∧ NotTwoSlashes u.path) ∨
   (∃ h, u.host = some h ∧ (∀ c ∈ h, isHostEndNS c = false) ∧
     (u.path = [] ∨ ∃ ps, u.path = '/' :: ps)))

/-- Well-formed URL object: everything the parser guarantees about its
output, and what re-parsing a serialization needs. -/
def WF (u : UrlObj) : Prop :=
  SchemeOk u.scheme ∧ Lowered u.scheme ∧ QueryOk u.query ∧
  ((isSpecialScheme u.scheme = true ∧ SpecialPartsWF u) ∨
   (isSpecialScheme u.scheme = false ∧ NSPartsWF u))

theorem lowered_map (l : List Char) : Lowered (l.map lowerChar) := by
  intro c hc
  rcases List.mem_map.mp hc with ⟨e, _, he⟩
  rw [← he, lowerChar_idem]

theorem map_lowerChar_of_lowered {l : List Char} (h : Lowered l) : l.map lowerChar = l := by
  rw [List.map_congr_left h]
  simp

theorem parseQF_queryOk (rest : List Char) : QueryOk (parseQF rest).1 := by
  rcases rest with _ | ⟨c, r⟩
  · trivial
  simp only [parseQF]
  by_cases h1 : c = '?'
  · rw [if_pos h1]
    show '#' ∉ r.takeWhile (fun d => !decide (d = '#'))
    intro hm
    have := List.mem_takeWhile_imp hm
    simp at this
  · rw [if_neg h1]
    by_cases h2 : c = '#'
    · rw [if_pos h2]; trivial
    · rw [if_neg h2]; trivial

theorem takeWhile_head {p : Char → Bool} {l : List Char} {a : Char} {t : List Char}
    (h : l.takeWhile p = a :: t) : p a = true ∧ ∃ r, l = a :: r := by
  cases l with
  | nil => simp at h
  | cons b bs =>
    rw [List.takeWhile_cons] at h
    by_cases hb : p b = true
    · rw [if_pos hb] at h
      injection h with h1 _
      subst h1
      exact ⟨hb, bs, rfl⟩
    · rw [if_neg hb] at h
      simp at h

theorem notTwoSlashes_takeWhile {p : Char → Bool} {rest : List Char}
    (h : NotTwoSlashes rest) : NotTwoSlashes (rest.takeWhile p) := by
  intro t heq
  rcases takeWhile_head heq with ⟨hp1, r, hr⟩
  subst hr
  rw [List.takeWhile_cons, if_pos hp1] at heq
  injection heq with _ heq2
  rcases takeWhile_head heq2 with ⟨hp2, r2, hr2⟩
  subst hr2
  exact h r2 rfl

theorem slash_of_hostEndNS {a : Char} (h1 : isHostEndNS a = true)
    (h2 : isPathEnd a = false) : a = '/' := by
  unfold isHostEndNS at h1
  unfold isPathEnd at h2
  simp only [Bool.or_eq_true, decide_eq_true_eq] at h1
  simp only [Bool.or_eq_false_iff, decide_eq_false_iff_not] at h2
  rcases h1 with (h | h) | h
  · exact h
  · exact absurd h h2.1
  · exact absurd h h2.2

theorem mem_takeWhile_pathEnd {rest : List Char} {c : Char}
    (h : c ∈ rest.takeWhile (fun d => !isPathEnd d)) : isPathEnd c = false := by
  have := List.mem_takeWhile_imp h
  simpa using this

theorem parseNoAuth_wf {scheme rest : List Char} (hs : SchemeOk scheme)
    (hl : Lowered scheme) (hns : isSpecialScheme scheme = false)
    (hnts : NotTwoSlashes rest) : WF (parseNoAuth scheme rest) := by
  refine ⟨hs, hl, parseQF_queryOk _, Or.inr ⟨hns, ?_, Or.inl ⟨rfl, ?_⟩⟩⟩
  · intro c hc
    exact mem_takeWhile_pathEnd hc
  · exact notTwoSlashes_takeWhile hnts

theorem parseAuthNS_wf {scheme rest1 : List Char} (hs : SchemeOk scheme)
    (hl : Lowered scheme) (hns : isSpecialScheme scheme = false) :
    WF (parseAuthNS scheme rest1) := by
  refine ⟨hs, hl, parseQF_queryOk _, Or.inr ⟨hns, ?_, Or.inr ⟨_, rfl, ?_, ?_⟩⟩⟩
  · intro c hc
    exact mem_takeWhile_pathEnd hc
  · intro c hc
    have := List.mem_takeWhile_imp hc
    simpa using this
  · rcases hp : (rest1.dropWhile (fun c => !isHostEndNS c)).takeWhile
        (fun c => !isPathEnd c) with _ | ⟨a, t⟩
    · exact Or.inl hp
    · right
      rcases takeWhile_head hp with ⟨hpa, r, hr⟩
      have ha2 : isHostEndNS a = true := by
        have := dropWhile_head_false hr
        simpa using this
      have ha3 : isPathEnd a = false := by simpa using hpa
      rw [slash_of_hostEndNS ha2 ha3] at hp
      exact ⟨t, hp⟩

theorem parseAfterScheme_wf {scheme rest : List Char} {u : UrlObj}
    (hs : SchemeOk scheme) (hl : Lowered scheme)
    (h : parseAfterScheme scheme rest = some u) : WF u := by
  by_cases hsp : isSpecialScheme scheme = true
  · unfold parseAfterScheme at h
    rw [if_pos hsp] at h
    simp only [] at h
    by_cases hemp : ((rest.dropWhile isSlash).takeWhile (fun c => !isHostEnd c)).isEmpty = true
    · rw [if_pos hemp] at h
      exact Option.noConfusion h
    · rw [if_neg hemp] at h
      injection h with h
      subst h
      refine ⟨hs, hl, parseQF_queryOk _, Or.inl ⟨hsp, _, rfl, ?_, ?_, ?_, ?_⟩⟩
      · intro he
        rw [List.map_eq_nil_iff] at he
        rw [he] at hemp
        exact hemp rfl
      · intro c hc
        rcases List.mem_map.mp hc with ⟨e, hem, hee⟩
        have he2 := List.mem_takeWhile_imp hem
        have he3 : isHostEnd e = false := by simpa using he2
        subst hee
        exact ⟨isHostEnd_lowerChar he3, lowerChar_idem e⟩
      · intro c hc
        by_cases hp0 : (((rest.dropWhile isSlash).dropWhile (fun c => !isHostEnd c)).takeWhile
            (fun c => !isPathEnd c)).isEmpty = true
        · rw [if_pos hp0] at hc
          rcases List.mem_singleton.mp hc with rfl
          decide
        · rw [if_neg hp0] at hc
          exact mem_takeWhile_pathEnd hc
      · by_cases hp0 : (((rest.dropWhile isSlash).dropWhile (fun c => !isHostEnd c)).takeWhile
            (fun c => !isPathEnd c)).isEmpty = true
        · rw [if_pos hp0]
          exact ⟨'/', [], rfl, by decide⟩
        · rw [if_neg hp0]
          rcases hp : (((rest.dropWhile isSlash).dropWhile (fun c => !isHostEnd c)).takeWhile
              (fun c => !isPathEnd c)) with _ | ⟨a, t⟩
          · rw [hp] at hp0
            exact absurd rfl hp0
          · refine ⟨a, t, rfl, ?_⟩
            rcases takeWhile_head hp with ⟨_, r, hr⟩
            have := dropWhile_head_false hr
            simpa using this
  · have hsp2 : isSpecialScheme scheme = false := Bool.eq_false_iff.mpr hsp
    unfold parseAfterScheme at h
    rw [if_neg hsp] at h
    injection h with h
    subst h
    rcases rest with _ | ⟨c1, rest0⟩
    · exact parseNoAuth_wf hs hl hsp2 (fun t ht => List.noConfusion ht)
    rcases rest0 with _ | ⟨c2, rest1⟩
    · refine parseNoAuth_wf hs hl hsp2 (fun t ht => ?_)
      injection ht with _ ht2
      exact List.noConfusion ht2
    simp only [parseNS]
    by_cases hss : c1 = '/' ∧ c2 = '/'
    · rw [if_pos hss]
      exact parseAuthNS_wf hs hl hsp2
    · rw [if_neg hss]
      refine parseNoAuth_wf hs hl hsp2 (fun t ht => ?_)
      injection ht with ht1 ht2
      injection ht2 with ht2 _
      exact hss ⟨ht1, ht2⟩

theorem parseUrl_wf {s : List Char} {u : UrlObj} (h : parseUrl s = some u) : WF u := by
  rcases s with _ | ⟨c, rest⟩
  · exact Option.noConfusion h
  simp only [parseUrl] at h
  by_cases hc : isSchemeStart c = true
  · rw [if_pos hc] at h
    rcases hd : rest.dropWhile isSchemeChar with _ | ⟨d, rest2⟩
    · rw [hd] at h
      exact Option.noConfusion h
    · rw [hd] at h
      simp only [parseSchemeRest] at h
      by_cases hcol : d = ':'
      · rw [if_pos hcol] at h
        refine parseAfterScheme_wf ?_ (lowered_map _) h
        refine ⟨lowerChar c, (rest.takeWhile isSchemeChar).map lowerChar, by simp, ?_, ?_⟩
        · exact isSchemeStart_lowerChar hc
        · intro e he
          rcases List.mem_map.mp he with ⟨e0, he0, hee⟩
          have := List.mem_takeWhile_imp he0
          subst hee
          exact isSchemeChar_lowerChar this
      · rw [if_neg hcol] at h
        exact Option.noConfusion h
  · rw [if_neg hc] at h
    exact Option.noConfusion h

/-! ### Re-parsing a serialized well-formed URL object -/

theorem parseQF_qfChars {q f : Option (List Char)} (hq : QueryOk q) :
    parseQF (qfChars q f) = (q, f) := by
  cases q with
  | none =>
    cases f with
    | none => rfl
    | some fs =>
      show parseQF ('#' :: fs) = _
      simp only [parseQF]
      simp
  | some qs =>
    have hq2 : ∀ c ∈ qs, (fun d => !decide (d = '#')) c = true := by
      intro c hc
      simp only [Bool.not_eq_true']
      exact decide_eq_false (fun he => hq (he ▸ hc))
    cases f with
    | none =>
      show parseQF ('?' :: (qs ++ [])) = _
      simp only [parseQF]
      rw [if_pos trivial]
      rw [takeWhile_append_all _ hq2, dropWhile_append_all _ hq2]
      simp
    | some fs =>
      show parseQF ('?' :: (qs ++ '#' :: fs)) = _
      simp only [parseQF]
      rw [if_pos trivial]
      rw [takeWhile_append_all _ hq2, dropWhile_append_all _ hq2]
      rw [takeWhile_cons_false _ (by decide), dropWhile_cons_false _ (by decide)]
      simp

theorem qfChars_stop (pred : Char → Bool) (q f : Option (List Char))
    (hq : pred '?' = true) (hh : pred '#' = true) :
    (qfChars q f).takeWhile (fun c => !pred c) = [] ∧
    (qfChars q f).dropWhile (fun c => !pred c) = qfChars q f := by
  cases q with
  | some qs =>
    constructor
    · exact takeWhile_cons_false _ (by simp [hq])
    · exact dropWhile_cons_false _ (by simp [hq])
  | none =>
    cases f with
    | some fs =>
      constructor
      · exact takeWhile_cons_false _ (by simp [hh])
      · exact dropWhile_cons_false _ (by simp [hh])
    | none => exact ⟨rfl, rfl⟩

theorem qfChars_ne_slash (q f : Option (List Char)) :
    ∀ t, qfChars q f ≠ '/' :: t := by
  intro t heq
  cases q with
  | some qs => exact absurd (List.head_eq_of_cons_eq heq) (by decide)
  | none =>
    cases f with
    | some fs => exact absurd (List.head_eq_of_cons_eq heq) (by decide)
    | none => exact List.noConfusion heq

theorem notTwoSlashes_path_qf {path : List Char} (q f : Option (List Char))
    (h : NotTwoSlashes path) : NotTwoSlashes (path ++ qfChars q f) := by
  intro t heq
  rcases path with _ | ⟨a, rest⟩
  · exact qfChars_ne_slash q f _ heq
  rcases rest with _ | ⟨b, rest2⟩
  · injection heq with h1 h2
    exact qfChars_ne_slash q f _ h2
  · injection heq with h1 h2
    injection h2 with h2 _
    exact h rest2 (by rw [h1, h2])

theorem parseNS_noAuth {scheme rest : List Char} (h : NotTwoSlashes rest) :
    parseNS scheme rest = parseNoAuth scheme rest := by
  rcases rest with _ | ⟨c1, rest0⟩
  · rfl
  rcases rest0 with _ | ⟨c2, rest1⟩
  · rfl
  simp only [parseNS]
  rw [if_neg (fun hss => h rest1 (by rw [hss.1, hss.2]))]

theorem reparse {u : UrlObj} (h : WF u) : parseUrl (serializeUrl u) = some u := by
  obtain ⟨hs, hl, hq, hcase⟩ := h
  obtain ⟨c0, cs, hsch, hc0, hcs⟩ := hs
  have hlcs : Lowered (c0 :: cs) := hsch ▸ hl
  have hser : serializeUrl u =
      c0 :: (cs ++ ':' :: (hostChars u.host ++ (u.path ++ qfChars u.query u.fragment))) := by
    rw [serializeUrl, hsch]
    rfl
  rw [hser]
  simp only [parseUrl]
  rw [if_pos hc0]
  rw [show (cs ++ ':' :: (hostChars u.host ++
      (u.path ++ qfChars u.query u.fragment))).dropWhile isSchemeChar =
      ':' :: (hostChars u.host ++ (u.path ++ qfChars u.query u.fragment)) from by
    rw [dropWhile_append_all _ hcs]
    exact dropWhile_cons_false _ (by decide)]
  simp only [parseSchemeRest]
  rw [if_pos trivial]
  rw [show (cs ++ ':' :: (hostChars u.host ++
      (u.path ++ qfChars u.query u.fragment))).takeWhile isSchemeChar = cs from by
    rw [takeWhile_append_all _ hcs, takeWhile_cons_false _ (by decide), List.append_nil]]
  rw [show (c0 :: cs).map lowerChar = u.scheme from by
    rw [map_lowerChar_of_lowered hlcs, hsch]]
  rcases hcase with ⟨hsp, hh0, hhost, hne, hchars, hpath, p, ps, hpshape, hpend⟩ |
      ⟨hsp, hpath, hcase2⟩
  · rcases hh0 with _ | ⟨hd0, hs0⟩
    · exact absurd rfl hne
    rw [hhost]
    have hpall : ∀ c ∈ u.path, (fun c => !isPathEnd c) c = true := by
      intro c hc
      simp [hpath c hc]
    have hqstop := qfChars_stop isPathEnd u.query u.fragment (by decide) (by decide)
    have htp : (u.path ++ qfChars u.query u.fragment).takeWhile (fun c => !isPathEnd c) =
        u.path := by
      rw [takeWhile_append_all _ hpall, hqstop.1, List.append_nil]
    have hdp : (u.path ++ qfChars u.query u.fragment).dropWhile (fun c => !isPathEnd c) =
        qfChars u.query u.fragment := by
      rw [dropWhile_append_all _ hpall, hqstop.2]
    have hslash : isSlash hd0 = false :=
      isSlash_eq_false_of_isHostEnd (hchars hd0 (by simp)).1
    have hdws : ('/' :: '/' :: ((hd0 :: hs0) ++ (u.path ++ qfChars u.query u.fragment))).dropWhile
        isSlash = (hd0 :: hs0) ++ (u.path ++ qfChars u.query u.fragment) := by
      rw [List.dropWhile_cons, if_pos (by decide), List.dropWhile_cons, if_pos (by decide)]
      exact dropWhile_cons_false _ hslash
    have hhall : ∀ c ∈ hd0 :: hs0, (fun c => !isHostEnd c) c = true := by
      intro c hc
      simp [(hchars c hc).1]
    have hpq_he : (u.path ++ qfChars u.query u.fragment).takeWhile (fun c => !isHostEnd c) =
        [] := by
      rw [hpshape]
      exact takeWhile_cons_false _ (by simp [hpend])
    have htk : ((hd0 :: hs0) ++ (u.path ++ qfChars u.query u.fragment)).takeWhile
        (fun c => !isHostEnd c) = hd0 :: hs0 := by
      rw [takeWhile_append_all _ hhall, hpq_he, List.append_nil]
    have hdr : ((hd0 :: hs0) ++ (u.path ++ qfChars u.query u.fragment)).dropWhile
        (fun c => !isHostEnd c) = u.path ++ qfChars u.query u.fragment := by
      rw [dropWhile_append_all _ hhall, hpshape]
      exact dropWhile_cons_false _ (by simp [hpend])
    show parseAfterScheme u.scheme
        ('/' :: '/' :: ((hd0 :: hs0) ++ (u.path ++ qfChars u.query u.fragment))) = some u
    simp only [parseAfterScheme]
    rw [if_pos hsp, hdws, htk]
    rw [if_neg (by simp)]
    rw [hdr, htp, hdp]
    rw [if_neg (by rw [hpshape]; simp)]
    rw [parseQF_qfChars hq]
    rw [map_lowerChar_of_lowered (fun c hc => (hchars c hc).2)]
    rw [← hhost]
  · show parseAfterScheme u.scheme
        (hostChars u.host ++ (u.path ++ qfChars u.query u.fragment)) = some u
    simp only [parseAfterScheme]
    rw [if_neg (by simp [hsp])]
    refine congrArg some ?_
    have hpall : ∀ c ∈ u.path, (fun c => !isPathEnd c) c = true := by
      intro c hc
      simp [hpath c hc]
    have hqstop := qfChars_stop isPathEnd u.query u.fragment (by decide) (by decide)
    have htp : (u.path ++ qfChars u.query u.fragment).takeWhile (fun c => !isPathEnd c) =
        u.path := by
      rw [takeWhile_append_all _ hpall, hqstop.1, List.append_nil]
    have hdp : (u.path ++ qfChars u.query u.fragment).dropWhile (fun c => !isPathEnd c) =
        qfChars u.query u.fragment := by
      rw [dropWhile_append_all _ hpall, hqstop.2]
    rcases hcase2 with ⟨hhostn, hnts⟩ | ⟨hh1, hhost, hchars, hshape⟩
    · rw [hhostn]
      show parseNS u.scheme (u.path ++ qfChars u.query u.fragment) = u
      rw [parseNS_noAuth (notTwoSlashes_path_qf _ _ hnts)]
      unfold parseNoAuth
      rw [htp, hdp, parseQF_qfChars hq, ← hhostn]
    · rw [hhost]
      show parseNS u.scheme
          ('/' :: '/' :: (hh1 ++ (u.path ++ qfChars u.query u.fragment))) = u
      simp only [parseNS]
      rw [if_pos (by simp)]
      have hhall : ∀ c ∈ hh1, (fun c => !isHostEndNS c) c = true := by
        intro c hc
        simp [hchars c hc]
      have hqstop2 := qfChars_stop isHostEndNS u.query u.fragment
        (by decide) (by decide)
      have hstop : (u.path ++ qfChars u.query u.fragment).takeWhile
          (fun c => !isHostEndNS c) = [] := by
        rcases hshape with hnil | ⟨ps1, hcons⟩
        · rw [hnil, List.nil_append]
          exact hqstop2.1
        · rw [hcons]
          exact takeWhile_cons_false _ (by decide)
      have hstay : (u.path ++ qfChars u.query u.fragment).dropWhile
          (fun c => !isHostEndNS c) = u.path ++ qfChars u.query u.fragment := by
        rcases hshape with hnil | ⟨ps1, hcons⟩
        · rw [hnil, List.nil_append]
          exact hqstop2.2
        · rw [hcons]
          exact dropWhile_cons_false _ (by decide)
      have htk2 : (hh1 ++ (u.path ++ qfChars u.query u.fragment)).takeWhile
          (fun c => !isHostEndNS c) = hh1 := by
        rw [takeWhile_append_all _ hhall, hstop, List.append_nil]
      have hdr2 : (hh1 ++ (u.path ++ qfChars u.query u.fragment)).dropWhile
          (fun c => !isHostEndNS c) = u.path ++ qfChars u.query u.fragment := by
        rw [dropWhile_append_all _ hhall, hstay]
      unfold parseAuthNS
      simp only []
      rw [htk2, hdr2, htp, hdp, parseQF_qfChars hq, ← hhost]

/-! ### Properties of the URL engine -/

theorem wf_query_update {u : UrlObj} (h : WF u) {q2 : Option (List Char)}
    (hq2 : QueryOk q2) : WF { u with query := q2 } := by
  obtain ⟨hs, hl, _, hcase⟩ := h
  refine ⟨hs, hl, hq2, ?_⟩
  rcases hcase with ⟨hsp, hparts⟩ | ⟨hsp, hparts⟩
  · exact Or.inl ⟨hsp, hparts⟩
  · exact Or.inr ⟨hsp, hparts⟩

theorem normalizeUrl_nil (u : String) : normalizeUrl u [] = u := by
  unfold normalizeUrl
  rw [if_pos (by simp)]

/-- C4: normalization is idempotent: normalizing an already-normalized URL
with the same parameter list returns it unchanged. -/
theorem normalizeUrl_idempotent (u : String) (P : List String) :
    normalizeUrl (normalizeUrl u P) P = normalizeUrl u P := by
  by_cases hP : P.length = 0
  · unfold normalizeUrl
    rw [if_pos (by simp [hP]), if_pos (by simp [hP])]
  by_cases hv : isValidUrl u = true
  case neg =>
    have h1 : normalizeUrl u P = u := by
      unfold normalizeUrl
      rw [if_pos (by simp [Bool.eq_false_iff.mpr hv])]
    rw [h1]
    exact h1
  case pos =>
    obtain ⟨u0, hu0⟩ : ∃ u0, parseUrl u.data = some u0 := Option.isSome_iff_exists.mp hv
    have hwf := parseUrl_wf hu0
    set Q1 := (P.map String.data).foldl removeParamStep u0.query with hQ1
    set u1 : UrlObj := { u0 with query := Q1 } with hu1def
    have hnorm : normalizeUrl u P = String.mk (serializeUrl u1) := by
      unfold normalizeUrl
      rw [if_neg (by simp [hP, hv])]
      refine congrArg String.mk ?_
      unfold normalizeUrlChars
      rw [hu0]
    have hq1 : QueryOk Q1 := queryOk_foldl hwf.2.2.1
    have hwf1 : WF u1 := wf_query_update hwf hq1
    have hreparse := reparse hwf1
    have hvalid1 : isValidUrl (String.mk (serializeUrl u1)) = true := by
      show (parseUrl (serializeUrl u1)).isSome = true
      rw [hreparse]
      rfl
    rw [hnorm]
    unfold normalizeUrl
    rw [if_neg (by simp [hP, hvalid1])]
    refine congrArg String.mk ?_
    show normalizeUrlChars (serializeUrl u1) (P.map String.data) = serializeUrl u1
    unfold normalizeUrlChars
    rw [hreparse]
    show serializeUrl
        { u1 with query := (P.map String.data).foldl removeParamStep u1.query } =
      serializeUrl u1
    rw [show (P.map String.data).foldl removeParamStep u1.query = u1.query from by
      show (P.map String.data).foldl removeParamStep Q1 = Q1
      exact foldl_removeParam_id (fun p hp => by
        rw [hQ1]
        exact foldl_removeParam_fresh p hp)]

/-- C5: when the parameter list is empty or the URL is invalid, the
normalizer is the identity (and being a total function, it never
throws). -/
theorem normalizeUrl_identity_fallback (u : String) (P : List String)
    (h : P = [] ∨ isValidUrl u = false) : normalizeUrl u P = u := by
  unfold normalizeUrl
  rcases h with h | h
  · rw [if_pos (by simp [h])]
  · rw [if_pos (by simp [h])]

/-- Witness for C5 at a malformed input. -/
theorem normalizeUrl_identity_fallback_witness :
    (["sid"] = ([] : List String) ∨ isValidUrl "::bad::" = false) ∧
      normalizeUrl "::bad::" ["sid"] = "::bad::" :=
  ⟨Or.inr (by decide),
   normalizeUrl_identity_fallback "::bad::" ["sid"] (Or.inr (by decide))⟩

/-- The spec-side predicate of C3, following the spec's words: the
candidate parses as an absolute URL having a host component. -/
def AbsoluteUrlWithHost (s : String) : Prop :=
  ∃ u, parseUrl s.data = some u ∧ u.host ≠ none

/-- A nonempty host follows once leading slashes are skipped. -/
def HostPresent (rest : List Char) : Prop :=
  match rest.dropWhile isSlash with
  | [] => False
  | c :: _ => isHostEnd c = false

/-- Structural characterization of the strings the URL constructor
accepts: a valid scheme and a colon, plus a nonempty host when the scheme
is special. -/
def AbsoluteUrl (s : String) : Prop :=
  ∃ sch rest, s.data = sch ++ ':' :: rest ∧ SchemeOk sch ∧
    (isSpecialScheme (sch.map lowerChar) = true → HostPresent rest)

/-- Characters of a plain host: ASCII letters.  On such hosts domain
processing (lower-casing, percent-decoding, IDNA, IPv4 recognition, port
splitting) is plain lower-casing and never fails. -/
def plainHostChar (c : Char) : Bool :=
  isSchemeStart c

/-- The host of a parse result, when both exist, is plain. -/
def hostPlain : Option UrlObj → Bool
  | none => true
  | some u =>
    match u.host with
    | none => true
    | some h => h.all plainHostChar

/-- Candidates on which the embedded parser coincides with the platform
URL constructor: printable ASCII without spaces, so the constructor's
whitespace trimming and stripping is the identity, and a plainly
alphabetic host when one is parsed, so special-scheme host and port
validation (forbidden host code points, digit-only ports, IDNA, IPv4)
cannot reject. -/
def CandidateOk (s : String) : Prop :=
  (∀ c ∈ s.data, 32 < c.toNat ∧ c.toNat < 127) ∧
    hostPlain (parseUrl s.data) = true

instance (s : String) : Decidable (CandidateOk s) := by
  unfold CandidateOk
  infer_instance

/-- C3 (amended): on candidates where the embedding coincides with the
platform constructor - printable ASCII without whitespace, with a plainly
alphabetic host if any - isValidUrl accepts exactly the absolute URLs in
the structural sense above; a host is required only for special
schemes. -/
theorem isValidUrl_iff_absolute (s : String) (_hok : CandidateOk s) :
    isValidUrl s = true ↔ AbsoluteUrl s := by
  constructor
  · intro h
    unfold isValidUrl at h
    rcases hp : parseUrl s.data with _ | u
    · rw [hp] at h
      simp at h
    rcases hsd : s.data with _ | ⟨c, rest⟩
    · rw [hsd] at hp
      exact absurd hp (by simp [parseUrl])
    rw [hsd] at hp
    simp only [parseUrl] at hp
    by_cases hc : isSchemeStart c = true
    · rw [if_pos hc] at hp
      rcases hd : rest.dropWhile isSchemeChar with _ | ⟨d, rest2⟩
      · rw [hd] at hp
        simp [parseSchemeRest] at hp
      rw [hd] at hp
      simp only [parseSchemeRest] at hp
      by_cases hcol : d = ':'
      · subst hcol
        rw [if_pos rfl] at hp
        refine ⟨c :: rest.takeWhile isSchemeChar, rest2, ?_, ?_, ?_⟩
        · rw [hsd]
          show c :: rest = c :: (rest.takeWhile isSchemeChar ++ ':' :: rest2)
          rw [← hd, List.takeWhile_append_dropWhile]
        · exact ⟨c, rest.takeWhile isSchemeChar, rfl, hc,
            fun e he => List.mem_takeWhile_imp he⟩
        · intro hspec
          unfold parseAfterScheme at hp
          rw [if_pos hspec] at hp
          simp only [] at hp
          by_cases hemp : ((rest2.dropWhile isSlash).takeWhile
              (fun x => !isHostEnd x)).isEmpty = true
          · rw [if_pos hemp] at hp
            exact Option.noConfusion hp
          · unfold HostPresent
            rcases hdw : rest2.dropWhile isSlash with _ | ⟨a, t⟩
            · rw [hdw] at hemp
              exact absurd rfl hemp
            · show isHostEnd a = false
              by_cases hae : isHostEnd a = false
              · exact hae
              · have ha2 : isHostEnd a = true := by
                  rwa [Bool.not_eq_false] at hae
                rw [hdw, takeWhile_cons_false _ (by simp [ha2])] at hemp
                exact absurd rfl hemp
      · rw [if_neg hcol] at hp
        exact Option.noConfusion hp
    · rw [if_neg hc] at hp
      exact Option.noConfusion hp
  · rintro ⟨sch, rest, hdecomp, ⟨c, cs, hschc, hc, hcs⟩, hhost⟩
    unfold isValidUrl
    rw [hdecomp, hschc]
    show (parseUrl (c :: (cs ++ ':' :: rest))).isSome = true
    simp only [parseUrl]
    rw [if_pos hc]
    rw [show (cs ++ ':' :: rest).dropWhile isSchemeChar = ':' :: rest from by
      rw [dropWhile_append_all _ hcs]
      exact dropWhile_cons_false _ (by decide)]
    simp only [parseSchemeRest]
    rw [if_pos (by simp)]
    rw [show (cs ++ ':' :: rest).takeWhile isSchemeChar = cs from by
      rw [takeWhile_append_all _ hcs, takeWhile_cons_false _ (by decide), List.append_nil]]
    by_cases hsp : isSpecialScheme ((c :: cs).map lowerChar) = true
    · unfold parseAfterScheme
      rw [if_pos hsp]
      have hp2 : HostPresent rest := hhost (by rw [hschc]; exact hsp)
      unfold HostPresent at hp2
      rcases hdw : rest.dropWhile isSlash with _ | ⟨a, t⟩
      · rw [hdw] at hp2
        exact hp2.elim
      · rw [hdw] at hp2
        have hp3 : isHostEnd a = false := hp2
        rw [if_neg ?hostne]
        case hostne =>
          intro hemp
          rw [List.takeWhile_cons, if_pos (by simp [hp3])] at hemp
          simp at hemp
        rfl
    · unfold parseAfterScheme
      rw [if_neg hsp]
      rfl

/-- Witness for C3 at a plain-host special-scheme candidate. -/
theorem isValidUrl_iff_absolute_witness :
    CandidateOk "https://localhost/x?q=one" ∧
      AbsoluteUrl "https://localhost/x?q=one" :=
  ⟨by decide,
   (isValidUrl_iff_absolute "https://localhost/x?q=one" (by decide)).mp (by decide)⟩

/-- C3 counterexample: a mailto URL is accepted by isValidUrl although it
parses without any host component, refuting the host requirement of the
claim. -/
theorem isValidUrl_mailto_counterexample :
    isValidUrl "mailto:user@example.com" = true ∧
      ¬ AbsoluteUrlWithHost "mailto:user@example.com" := by
  constructor
  · decide
  · rintro ⟨u, hu, hh⟩
    have he : parseUrl ("mailto:user@example.com").data =
        some ⟨"mailto".data, none, "user@example.com".data, none, none⟩ := by decide
    rw [he] at hu
    injection hu with hu
    subst hu
    exact hh rfl

/-- C1 (amended): the dedup filter keeps exactly the candidates whose
normalized form is absent from the normalized existing set, in input
order; candidates are never compared against each other. -/
theorem filterNewUrls_eq_filter (urls existingUrls paramsToRemove : List String) :
    filterNewUrls urls existingUrls paramsToRemove =
      urls.filter (fun url => !(existingUrls.map
        (fun e => normalizeUrl e paramsToRemove)).contains
          (normalizeUrl url paramsToRemove)) ∧
    (filterNewUrls urls existingUrls paramsToRemove).Sublist urls := by
  constructor
  · unfold filterNewUrls
    by_cases hP : paramsToRemove.length = 0
    · rw [if_pos hP]
      have hPn : paramsToRemove = [] := List.length_eq_zero.mp hP
      subst hPn
      have h1 : existingUrls.map (fun e => normalizeUrl e []) = existingUrls := by
        rw [List.map_congr_left (fun e _ => normalizeUrl_nil e)]
        simp
      rw [h1]
      refine List.filter_congr ?_
      intro x _
      rw [normalizeUrl_nil]
    · rw [if_neg hP]
  · unfold filterNewUrls
    by_cases hP : paramsToRemove.length = 0
    · rw [if_pos hP]
      exact List.filter_sublist _
    · rw [if_neg hP]
      exact List.filter_sublist _

/-- C1 counterexample: two intra-batch candidates with equal normalized
forms and an empty existing set are both kept, so the output has two
elements, not one. -/
theorem filterNewUrls_intra_batch_counterexample :
    filterNewUrls ["https://a.example/x?sid=1", "https://a.example/x?sid=2"] [] ["sid"] =
      ["https://a.example/x?sid=1", "https://a.example/x?sid=2"] ∧
    (filterNewUrls ["https://a.example/x?sid=1", "https://a.example/x?sid=2"]
      [] ["sid"]).length = 2 := by
  constructor
  · decide
  · decide

/-! ### The record store (src/storage/csv.ts)

The parsed table is a list of records; file contents are lists of
characters.  The cost and archived fields are optional at the value
level: records built by UrlExtractor.createUrlRecords carry neither, and
they only gain concrete values through a CSV write/read round trip. -/

/-- One URL record as handled by CsvStorage. -/
structure UrlRecord where
  id : String
  source : String
  cost : Option String
  url : String
  dateAdded : String
  seen : Bool
  ok : Bool
  called : Bool
  active : Bool
  archived : Option Bool
deriving DecidableEq

/-- A record draft before id assignment (Omit UrlRecord id). -/
structure UrlDraft where
  source : String
  cost : Option String
  url : String
  dateAdded : String
  seen : Bool
  ok : Bool
  called : Bool
  active : Bool
  archived : Option Bool
deriving DecidableEq

/-- Spread of a draft together with an assigned id. -/
def UrlDraft.withId (d : UrlDraft) (i : String) : UrlRecord :=
  ⟨i, d.source, d.cost, d.url, d.dateAdded, d.seen, d.ok, d.called, d.active, d.archived⟩

/-- ASCII decimal digit. -/
def isDigit (c : Char) : Bool := decide (48 ≤ c.toNat ∧ c.toNat ≤ 57)

/-- Numeric value of a digit string. -/
def digitsToNat (l : List Char) : Nat :=
  l.foldl (fun acc c => acc * 10 + (c.toNat - 48)) 0

/-- Leading-digit parse shared by the signed cases of parseInt. -/
def jsParseIntCore (l : List Char) : Option Int :=
  let ds := l.takeWhile isDigit
  if ds.isEmpty then none else some (Int.ofNat (digitsToNat ds))

/-- Embedding of the JavaScript parseInt with radix 10: skip leading
spaces, optional sign, leading decimal digits; none models NaN. -/
def jsParseInt (s : String) : Option Int :=
  match s.data.dropWhile (fun c => decide (c = ' ')) with
  | [] => none
  | c :: r =>
    if c = '-' then (jsParseIntCore r).map (fun n => -n)
    else if c = '+' then jsParseIntCore r
    else jsParseIntCore (c :: r)

/-- Math.max on two parseInt results: NaN propagates. -/
def jsMax : Option Int → Option Int → Option Int
  | some a, some b => some (max a b)
  | _, _ => none

/-- Embedding of CsvStorage.getHighestId on the parsed table: parseInt on
every id and Math.max over them, 0 for an empty table.  The surrounding
catch of the method is modelled in the storage-error layer below. -/
def getHighestId (records : List UrlRecord) : Option Int :=
  match records.map (fun r => jsParseInt r.id) with
  | [] => some 0
  | i :: is => is.foldl jsMax i

/-- Embedding of CsvStorage.getExistingUrls on the parsed table (the
platform Set is modelled as the list of its members). -/
def getExistingUrls (records : List UrlRecord) : List String :=
  records.map (fun r => r.url)

/-- String(highestId + index + 1) of CsvStorage.appendRecords; adding to
NaN yields NaN. -/
def idString (h : Option Int) (index : Nat) : String :=
  match h with
  | some n => toString (n + (index : Int) + 1)
  | none => "NaN"

/-- Embedding of CsvStorage.appendRecords on the parsed table: compute the
highest id, extend each draft with its consecutive id, write back
old-then-new.  The first component is the table written back, the second
the method's return value. -/
def appendRecords (records : List UrlRecord) (newRecords : List UrlDraft) :
    List UrlRecord × List UrlRecord :=
  let highestId := getHighestId records
  let recordsToAdd := newRecords.enum.map (fun p => p.2.withId (idString highestId p.1))
  (records ++ recordsToAdd, recordsToAdd)

/-- Embedding of the platform Map set operation keyed by record id, as
used by CsvStorage.updateRecords: an existing key keeps its position and
takes the new record, a new key is appended at the end. -/
def mapSet (m : List UrlRecord) (r : UrlRecord) : List UrlRecord :=
  match m with
  | [] => [r]
  | x :: xs => if x.id = r.id then r :: xs else x :: mapSet xs r

/-- Embedding of CsvStorage.updateRecords on the parsed table: build a Map
of the stored records keyed by id, set every update into it, and write the
Map's values back. -/
def updateRecords (records updatedRecords : List UrlRecord) : List UrlRecord :=
  updatedRecords.foldl mapSet (records.foldl mapSet [])

/-- Embedding of UrlExtractor.createUrlRecords: one draft per URL, all
flags false, the shared batch timestamp as dateAdded, and neither cost nor
archived present. -/
def createUrlRecords (source : String) (urls : List String) (timestamp : Nat) :
    List UrlDraft :=
  urls.map (fun url =>
    ⟨source, none, url, toString timestamp, false, false, false, false, none⟩)

/-! ### The CSV text layer -/

/-- Lowercase serialization of a boolean, as String(bool). -/
def boolStr (b : Bool) : String := if b then "true" else "false"

/-- String(record.archived) where archived may be absent: the String of
the undefined value is the token undefined. -/
def archivedCell : Option Bool → String
  | some b => boolStr b
  | none => "undefined"

/-- The cost property handed to the CSV writer; csv-stringify renders a
missing property as an empty cell. -/
def costCell : Option String → String
  | some c => c
  | none => ""

/-- The cells of one record, in the fixed column order of the table. -/
def recordToRow (r : UrlRecord) : List String :=
  [r.id, r.source, costCell r.cost, r.url, r.dateAdded,
   boolStr r.seen, boolStr r.ok, boolStr r.called, boolStr r.active,
   archivedCell r.archived]

/-- The fixed header of the table. -/
def csvHeaderRow : List String :=
  ["id", "source", "cost", "url", "dateAdded", "seen", "ok", "called", "active", "archived"]

/-- Embedding of the JavaScript or-with-empty-string fallback applied to
the cost column on read. -/
def jsOrEmpty (a : String) : String := if a = "" then "" else a

/-- Decoding of one data row (csv-parse with columns under the standard
header), including the boolean conversions and defaults of
CsvStorage.read; a row of the wrong width fails the parse. -/
def rowToRecord (row : List String) : Option UrlRecord :=
  match row with
  | [i, src, c, u, d, se, okc, ca, ac, ar] =>
    some ⟨i, src, some (jsOrEmpty c), u, d,
      decide (se = "true"), decide (okc = "true"), decide (ca = "true"),
      decide (ac = "true"), some (decide (ar = "true"))⟩
  | _ => none

/-- Serialize one row: cells joined by commas. -/
def rowChars (row : List String) : List Char :=
  joinSep ',' (row.map String.data)

/-- Embedding of csv-stringify with header: the header line and one line
per record, newline-separated with a trailing newline. -/
def csvStringify (records : List UrlRecord) : List Char :=
  joinSep '\n' ((csvHeaderRow :: records.map recordToRow).map rowChars) ++ ['\n']

/-- Decode the data rows one by one; any malformed row fails the whole
parse, as csv-parse throws on an invalid record length. -/
def decodeRows : List (List Char) → Option (List UrlRecord)
  | [] => some []
  | line :: rest =>
    match rowToRecord ((splitSep ',' line).map String.mk), decodeRows rest with
    | some r, some rs => some (r :: rs)
    | _, _ => none

/-- Embedding of csv-parse with columns and skip_empty_lines under the
fixed header: split into lines, drop empty ones, check the header, decode
every row. -/
def csvParse (content : List Char) : Option (List UrlRecord) :=
  match (splitSep '\n' content).filter (fun l => !l.isEmpty) with
  | [] => some []
  | header :: rows =>
    if (splitSep ',' header).map String.mk = csvHeaderRow then decodeRows rows
    else none

/-! ### The storage-error layer: CsvStorage methods over a fallible file -/

/-- Embedding of CsvStorage.read: read the file, parse, convert; any
failure is rethrown wrapped in the read failure message. -/
def readOp (file : Except String (List Char)) : Except String (List UrlRecord) :=
  match file with
  | .error e => .error ("Failed to read CSV file: " ++ e)
  | .ok content =>
    match csvParse content with
    | some records => .ok records
    | none => .error "Failed to read CSV file: parse error"

/-- Embedding of CsvStorage.write: serialize and write; a filesystem
write failure is rethrown wrapped in the write failure message. -/
def writeOp (writeError : Option String) (records : List UrlRecord) :
    Except String (List Char) :=
  match writeError with
  | some e => .error ("Failed to write CSV file: " ++ e)
  | none => .ok (csvStringify records)

/-- Embedding of CsvStorage.getHighestId including its catch: any read
failure is swallowed and 0 is returned instead of an error. -/
def getHighestIdOp (file : Except String (List Char)) : Except String (Option Int) :=
  match readOp file with
  | .error _ => .ok (some 0)
  | .ok records => .ok (getHighestId records)

/-- Embedding of CsvStorage.getExistingUrls including its catch: any read
failure is swallowed and the empty set is returned instead of an error. -/
def getExistingUrlsOp (file : Except String (List Char)) : Except String (List String) :=
  match readOp file with
  | .error _ => .ok []
  | .ok records => .ok (getExistingUrls records)

/-- Embedding of CsvStorage.appendRecords at the file level: a read or
write failure is rethrown wrapped in the append failure message. -/
def appendRecordsOp (file : Except String (List Char)) (writeError : Option String)
    (newRecords : List UrlDraft) : Except String (List Char × List UrlRecord) :=
  match readOp file with
  | .error e => .error ("Failed to append records: " ++ e)
  | .ok records =>
    match writeOp writeError (appendRecords records newRecords).1 with
    | .error e => .error ("Failed to append records: " ++ e)
    | .ok content => .ok (content, (appendRecords records newRecords).2)

/-- Embedding of CsvStorage.updateRecords at the file level: a read or
write failure is rethrown wrapped in the update failure message. -/
def updateRecordsOp (file : Except String (List Char)) (writeError : Option String)
    (updatedRecords : List UrlRecord) : Except String (List Char) :=
  match readOp file with
  | .error e => .error ("Failed to update records: " ++ e)
  | .ok records =>
    match writeOp writeError (updateRecords records updatedRecords) with
    | .error e => .error ("Failed to update records: " ++ e)
    | .ok content => .ok content

/-! ### Properties of the record store -/

/-- C2: appendRecords assigns the ids following the highest existing id
consecutively in input order, writes the old records followed by the new
ones, returns exactly the new records, and the resulting url set is the
union of the old urls and the drafts' urls. -/
theorem appendRecords_spec (store : List UrlRecord) (drafts : List UrlDraft)
    (H : Int) (h : getHighestId store = some H) :
    (appendRecords store drafts).1 = store ++ (appendRecords store drafts).2 ∧
    (appendRecords store drafts).2 =
      drafts.enum.map (fun p => p.2.withId (toString (H + (p.1 : Int) + 1))) ∧
    (appendRecords store drafts).2.map UrlRecord.id =
      (List.range drafts.length).map (fun i : Nat => toString (H + (i : Int) + 1)) ∧
    ∀ u, u ∈ getExistingUrls (appendRecords store drafts).1 ↔
      u ∈ getExistingUrls store ∨ u ∈ drafts.map UrlDraft.url := by
  have h2 : (appendRecords store drafts).2 =
      drafts.enum.map (fun p => p.2.withId (toString (H + (p.1 : Int) + 1))) := by
    show drafts.enum.map (fun p => p.2.withId (idString (getHighestId store) p.1)) = _
    rw [h]
    rfl
  refine ⟨rfl, h2, ?_, ?_⟩
  · rw [h2, List.map_map]
    rw [show (UrlRecord.id ∘ fun p : Nat × UrlDraft =>
        p.2.withId (toString (H + (p.1 : Int) + 1))) =
      ((fun i : Nat => toString (H + (i : Int) + 1)) ∘ Prod.fst) from rfl]
    rw [← List.map_map, List.enum_map_fst]
  · intro u
    have h1 : (appendRecords store drafts).1 = store ++ (appendRecords store drafts).2 := rfl
    show u ∈ ((appendRecords store drafts).1.map (fun r => r.url)) ↔ _
    rw [h1, List.map_append, h2, List.map_map]
    rw [show ((fun r : UrlRecord => r.url) ∘ fun p : Nat × UrlDraft =>
        p.2.withId (toString (H + (p.1 : Int) + 1))) = (UrlDraft.url ∘ Prod.snd) from rfl]
    rw [← List.map_map, List.enum_map_snd]
    exact List.mem_append

/-- Witness for C2: a store with highest id 7 and two drafts yields ids 8
and 9 in input order. -/
theorem appendRecords_spec_witness :
    getHighestId [⟨"7", "s", some "", "https://a.example/1", "100",
      false, false, false, false, some false⟩] = some 7 ∧
    (appendRecords [⟨"7", "s", some "", "https://a.example/1", "100",
        false, false, false, false, some false⟩]
      [⟨"s", none, "https://a.example/2", "101", false, false, false, false, none⟩,
       ⟨"s", none, "https://a.example/3", "101", false, false, false, false, none⟩]).2.map
      UrlRecord.id = ["8", "9"] := by
  refine ⟨by decide, ?_⟩
  have h := appendRecords_spec
    [⟨"7", "s", some "", "https://a.example/1", "100", false, false, false, false, some false⟩]
    [⟨"s", none, "https://a.example/2", "101", false, false, false, false, none⟩,
     ⟨"s", none, "https://a.example/3", "101", false, false, false, false, none⟩]
    7 (by decide)
  rw [h.2.2.1]
  decide

/-- C6 (amended): read, write, appendRecords and updateRecords propagate
read and write failures to the caller as storage errors, while
getHighestId and getExistingUrls swallow the failure and return the
fallback values 0 and the empty set. -/
theorem storageError_handling (e we : String) (content : List Char)
    (records : List UrlRecord) (drafts : List UrlDraft) (updates : List UrlRecord)
    (hparse : csvParse content = some records) :
    readOp (.error e) = .error ("Failed to read CSV file: " ++ e) ∧
    writeOp (some we) records = .error ("Failed to write CSV file: " ++ we) ∧
    appendRecordsOp (.error e) none drafts =
      .error ("Failed to append records: " ++ ("Failed to read CSV file: " ++ e)) ∧
    updateRecordsOp (.error e) none updates =
      .error ("Failed to update records: " ++ ("Failed to read CSV file: " ++ e)) ∧
    appendRecordsOp (.ok content) (some we) drafts =
      .error ("Failed to append records: " ++ ("Failed to write CSV file: " ++ we)) ∧
    updateRecordsOp (.ok content) (some we) updates =
      .error ("Failed to update records: " ++ ("Failed to write CSV file: " ++ we)) ∧
    getHighestIdOp (.error e) = .ok (some 0) ∧
    getExistingUrlsOp (.error e) = .ok [] := by
  have hread : readOp (.ok content) = .ok records := by
    simp only [readOp]
    rw [hparse]
  refine ⟨rfl, rfl, rfl, rfl, ?_, ?_, rfl, rfl⟩
  · unfold appendRecordsOp
    rw [hread]
    rfl
  · unfold updateRecordsOp
    rw [hread]
    rfl

/-- Witness for C6 at a concrete empty table and failing filesystem. -/
theorem storageError_handling_witness :
    csvParse (csvStringify []) = some [] ∧
    appendRecordsOp (.ok (csvStringify [])) (some "ENOSPC") [] =
      .error ("Failed to append records: " ++ ("Failed to write CSV file: " ++ "ENOSPC")) ∧
    readOp (.error "EACCES") = .error ("Failed to read CSV file: " ++ "EACCES") := by
  refine ⟨by decide, ?_, ?_⟩
  · exact (storageError_handling "EACCES" "ENOSPC" (csvStringify []) [] [] []
      (by decide)).2.2.2.2.1
  · exact (storageError_handling "EACCES" "ENOSPC" (csvStringify []) [] [] []
      (by decide)).1

/-- C6 counterexample: on a failing read, getHighestId returns 0 and
getExistingUrls returns the empty set instead of raising a storage error,
so not every operation propagates storage failures. -/
theorem getHighestId_swallows_read_failure :
    getHighestIdOp (.error "EIO: disk read failure") = .ok (some 0) ∧
    getExistingUrlsOp (.error "EIO: disk read failure") = .ok [] :=
  ⟨rfl, rfl⟩

/-! ### Characterization of the Map-based upsert -/

/-- Substitute a record by the update sharing its id, when there is one. -/
def applyUpdates (updates : List UrlRecord) (r : UrlRecord) : UrlRecord :=
  match updates.find? (fun u => decide (u.id = r.id)) with
  | some u => u
  | none => r

theorem applyUpdates_nil_fun : applyUpdates [] = id :=
  funext fun _ => rfl

theorem applyUpdates_of_no_match {updates : List UrlRecord} {r : UrlRecord}
    (h : ∀ u ∈ updates, u.id ≠ r.id) : applyUpdates updates r = r := by
  unfold applyUpdates
  rw [List.find?_eq_none.mpr (fun u hu => by simp [h u hu])]

theorem mapSet_eq {m : List UrlRecord} (u : UrlRecord)
    (hm : (m.map UrlRecord.id).Nodup) :
    mapSet m u =
      if (m.any (fun x => decide (x.id = u.id))) = true
      then m.map (fun x => if x.id = u.id then u else x)
      else m ++ [u] := by
  induction m with
  | nil => rfl
  | cons x xs ih =>
    rw [List.map_cons, List.nodup_cons] at hm
    simp only [mapSet]
    by_cases hx : x.id = u.id
    · rw [if_pos hx]
      have hany : ((x :: xs).any (fun y => decide (y.id = u.id))) = true := by
        simp [List.any_cons, hx]
      rw [if_pos hany, List.map_cons, if_pos hx]
      have hxs : xs.map (fun y => if y.id = u.id then u else y) = xs := by
        rw [List.map_congr_left (fun y hy => if_neg (fun he => hm.1 (by
          rw [hx, ← he]
          exact List.mem_map_of_mem UrlRecord.id hy)))]
        exact List.map_id xs
      rw [hxs]
    · rw [if_neg hx]
      have hany : ((x :: xs).any (fun y => decide (y.id = u.id))) =
          (xs.any (fun y => decide (y.id = u.id))) := by
        simp [List.any_cons, hx]
      rw [ih hm.2]
      by_cases hxs : (xs.any (fun y => decide (y.id = u.id))) = true
      · rw [if_pos hxs, if_pos (by rw [hany]; exact hxs), List.map_cons, if_neg hx]
      · rw [if_neg hxs, if_neg (by rw [hany]; exact hxs)]
        rfl

theorem map_id_subst (m : List UrlRecord) (u : UrlRecord) :
    (m.map (fun x => if x.id = u.id then u else x)).map UrlRecord.id =
      m.map UrlRecord.id := by
  rw [List.map_map]
  refine List.map_congr_left ?_
  intro x _
  show (if x.id = u.id then u else x).id = x.id
  by_cases hx : x.id = u.id
  · rw [if_pos hx]
    exact hx.symm
  · rw [if_neg hx]

theorem foldl_mapSet_eq {us : List UrlRecord} :
    ∀ {m : List UrlRecord}, (m.map UrlRecord.id).Nodup → (us.map UrlRecord.id).Nodup →
    us.foldl mapSet m = m.map (applyUpdates us) ++
      us.filter (fun u => !(m.any (fun x => decide (x.id = u.id)))) := by
  induction us with
  | nil =>
    intro m _ _
    show m = m.map (applyUpdates []) ++ List.filter _ []
    rw [applyUpdates_nil_fun, List.map_id]
    simp
  | cons u us ih =>
    intro m hm hu
    rw [List.map_cons, List.nodup_cons] at hu
    obtain ⟨hu1, hu2⟩ := hu
    show us.foldl mapSet (mapSet m u) = _
    rw [mapSet_eq u hm]
    by_cases hany : (m.any (fun x => decide (x.id = u.id))) = true
    · rw [if_pos hany]
      rw [ih (by rw [map_id_subst]; exact hm) hu2]
      have hpart1 : (m.map (fun x => if x.id = u.id then u else x)).map (applyUpdates us) =
          m.map (applyUpdates (u :: us)) := by
        rw [List.map_map]
        refine List.map_congr_left ?_
        intro x _
        show applyUpdates us (if x.id = u.id then u else x) = applyUpdates (u :: us) x
        by_cases hx : x.id = u.id
        · rw [if_pos hx]
          rw [show applyUpdates (u :: us) x = u from by
            unfold applyUpdates
            rw [List.find?_cons_of_pos _ (by simp [hx])]]
          exact applyUpdates_of_no_match (fun v hv he =>
            hu1 (he ▸ List.mem_map_of_mem UrlRecord.id hv))
        · rw [if_neg hx]
          show applyUpdates us x = applyUpdates (u :: us) x
          unfold applyUpdates
          rw [List.find?_cons_of_neg _ (by
            simp only [decide_eq_true_eq]
            exact fun he => hx he.symm)]
      have hpart2 : us.filter (fun v => !((m.map (fun x => if x.id = u.id then u else x)).any
          (fun x => decide (x.id = v.id)))) =
          us.filter (fun v => !(m.any (fun x => decide (x.id = v.id)))) := by
        refine List.filter_congr ?_
        intro v _
        rw [List.any_map]
        have : ((fun x : UrlRecord => decide (x.id = v.id)) ∘
            fun x => if x.id = u.id then u else x) =
            fun x : UrlRecord => decide ((if x.id = u.id then u else x).id = v.id) := rfl
        rw [this]
        have h2 : (fun x : UrlRecord => decide ((if x.id = u.id then u else x).id = v.id)) =
            fun x : UrlRecord => decide (x.id = v.id) := by
          funext x
          by_cases hx : x.id = u.id
          · rw [if_pos hx, show u.id = x.id from hx.symm]
          · rw [if_neg hx]
        rw [h2]
      rw [hpart1, hpart2]
      have hu_not_fresh : ((u :: us).filter
          (fun v => !(m.any (fun x => decide (x.id = v.id))))) =
          us.filter (fun v => !(m.any (fun x => decide (x.id = v.id)))) := by
        rw [List.filter_cons]
        rw [hany]
        rfl
      rw [hu_not_fresh]
    · rw [if_neg hany]
      have hfresh : ∀ x ∈ m, ¬ x.id = u.id := by
        intro x hx
        have := List.any_eq_false.mp (Bool.eq_false_iff.mpr hany) x hx
        simpa using this
      have hnodup2 : ((m ++ [u]).map UrlRecord.id).Nodup := by
        rw [List.map_append]
        rw [List.nodup_append]
        refine ⟨hm, by simp, ?_⟩
        intro a ha hb
        rcases List.mem_map.mp ha with ⟨x, hx, he⟩
        rcases List.mem_singleton.mp (by simpa using hb) with rfl
        exact hfresh x hx (by rw [← he])
      rw [ih hnodup2 hu2]
      have happ_u : applyUpdates us u = u :=
        applyUpdates_of_no_match (fun v hv he =>
          hu1 (he ▸ List.mem_map_of_mem UrlRecord.id hv))
      have hpart1 : m.map (applyUpdates us) = m.map (applyUpdates (u :: us)) := by
        refine List.map_congr_left ?_
        intro x hx
        show applyUpdates us x = applyUpdates (u :: us) x
        unfold applyUpdates
        rw [List.find?_cons_of_neg _ (by
          simp only [decide_eq_true_eq]
          exact fun he => hfresh x hx he.symm)]
      have hpart2 : us.filter (fun v => !((m ++ [u]).any (fun x => decide (x.id = v.id)))) =
          us.filter (fun v => !(m.any (fun x => decide (x.id = v.id)))) := by
        refine List.filter_congr ?_
        intro v hv
        rw [List.any_append]
        have : ([u].any (fun x => decide (x.id = v.id))) = false := by
          simp only [List.any_cons, List.any_nil, Bool.or_false, decide_eq_false_iff_not]
          exact fun he => hu1 (he ▸ List.mem_map_of_mem UrlRecord.id hv)
        rw [this, Bool.or_false]
      rw [List.map_append, hpart1, hpart2]
      have hu_fresh : ((u :: us).filter
          (fun v => !(m.any (fun x => decide (x.id = v.id))))) =
          u :: us.filter (fun v => !(m.any (fun x => decide (x.id = v.id)))) := by
        rw [List.filter_cons]
        rw [Bool.eq_false_iff.mpr hany]
        rfl
      rw [hu_fresh]
      rw [show ([u].map (applyUpdates us)) = [u] from by
        rw [List.map_cons, happ_u, List.map_nil]]
      rw [List.append_assoc, List.singleton_append]

theorem updateRecords_eq {store updates : List UrlRecord}
    (hst : (store.map UrlRecord.id).Nodup) (hup : (updates.map UrlRecord.id).Nodup) :
    updateRecords store updates = store.map (applyUpdates updates) ++
      updates.filter (fun u => !(store.any (fun x => decide (x.id = u.id)))) := by
  unfold updateRecords
  have hbuild : store.foldl mapSet [] = store := by
    rw [foldl_mapSet_eq (by simp) hst]
    simp
  rw [hbuild, foldl_mapSet_eq hst hup]

theorem find?_eq_of_nodup {updates : List UrlRecord} {u r : UrlRecord}
    (hup : (updates.map UrlRecord.id).Nodup) (hu : u ∈ updates) (hid : u.id = r.id) :
    updates.find? (fun v => decide (v.id = r.id)) = some u := by
  induction updates with
  | nil => simp at hu
  | cons w ws ih =>
    rw [List.map_cons, List.nodup_cons] at hup
    by_cases hw : w.id = r.id
    · rw [List.find?_cons_of_pos _ (by simp [hw])]
      rcases List.mem_cons.mp hu with he | hm
      · rw [he]
      · exact absurd (by rw [hw, ← hid]; exact List.mem_map_of_mem UrlRecord.id hm) hup.1
    · rw [List.find?_cons_of_neg _ (by simp [hw])]
      rcases List.mem_cons.mp hu with he | hm
      · exact absurd (he ▸ hid) hw
      · exact ih hup.2 hm

/-- C8: updateRecords replaces, for each update whose id matches a stored
record, exactly that record by the update; inserts updates whose id is not
present as new records; and keeps every record whose id is not updated
unchanged and present. -/
theorem updateRecords_upsert (store updates : List UrlRecord)
    (hst : (store.map UrlRecord.id).Nodup) (hup : (updates.map UrlRecord.id).Nodup) :
    updateRecords store updates = store.map (applyUpdates updates) ++
      updates.filter (fun u => !(store.any (fun x => decide (x.id = u.id)))) ∧
    (∀ r ∈ store, ∀ u ∈ updates, u.id = r.id → u ∈ updateRecords store updates) ∧
    (∀ u ∈ updates, (∀ r ∈ store, r.id ≠ u.id) → u ∈ updateRecords store updates) ∧
    (∀ r ∈ store, (∀ u ∈ updates, u.id ≠ r.id) → r ∈ updateRecords store updates) := by
  have heq := updateRecords_eq hst hup
  refine ⟨heq, ?_, ?_, ?_⟩
  · intro r hr u hu hid
    rw [heq]
    refine List.mem_append.mpr (Or.inl ?_)
    have : applyUpdates updates r = u := by
      unfold applyUpdates
      rw [find?_eq_of_nodup hup hu hid]
    rw [← this]
    exact List.mem_map_of_mem (applyUpdates updates) hr
  · intro u hu hfresh
    rw [heq]
    refine List.mem_append.mpr (Or.inr ?_)
    refine List.mem_filter.mpr ⟨hu, ?_⟩
    have : (store.any (fun x => decide (x.id = u.id))) = false := by
      rw [List.any_eq_false]
      intro x hx
      simp [hfresh x hx]
    rw [this]
    rfl
  · intro r hr hnone
    rw [heq]
    refine List.mem_append.mpr (Or.inl ?_)
    have : applyUpdates updates r = r := applyUpdates_of_no_match hnone
    rw [← this]
    exact List.mem_map_of_mem (applyUpdates updates) hr

/-- Witness for C8 at a concrete store and update batch: one update
replaces the record with its id, one is inserted, one record is kept. -/
theorem updateRecords_upsert_witness :
    updateRecords
      [⟨"1", "s", some "", "https://a.example/1", "100", false, false, false, false, some false⟩,
       ⟨"2", "s", some "", "https://a.example/2", "100", false, false, false, false, some false⟩]
      [⟨"2", "s", some "9", "https://a.example/2", "100", true, true, false, false, some false⟩,
       ⟨"5", "s", some "", "https://a.example/5", "100", false, false, false, false, some false⟩] =
    [⟨"1", "s", some "", "https://a.example/1", "100", false, false, false, false, some false⟩,
     ⟨"2", "s", some "9", "https://a.example/2", "100", true, true, false, false, some false⟩,
     ⟨"5", "s", some "", "https://a.example/5", "100", false, false, false, false, some false⟩] := by
  have h := updateRecords_upsert
    [⟨"1", "s", some "", "https://a.example/1", "100", false, false, false, false, some false⟩,
     ⟨"2", "s", some "", "https://a.example/2", "100", false, false, false, false, some false⟩]
    [⟨"2", "s", some "9", "https://a.example/2", "100", true, true, false, false, some false⟩,
     ⟨"5", "s", some "", "https://a.example/5", "100", false, false, false, false, some false⟩]
    (by decide) (by decide)
  rw [h.1]
  decide

/-- C9: updateRecords preserves the stored order: a record whose id
already exists stays at its original index (holding the update's fields
when updated), and updates with new ids are appended after all stored
records in the order of the update batch. -/
theorem updateRecords_order (store updates : List UrlRecord)
    (hst : (store.map UrlRecord.id).Nodup) (hup : (updates.map UrlRecord.id).Nodup) :
    (∀ i, (hi : i < store.length) → (updateRecords store updates)[i]? =
      some (applyUpdates updates store[i])) ∧
    (updateRecords store updates).drop store.length =
      updates.filter (fun u => !(store.any (fun x => decide (x.id = u.id)))) := by
  constructor
  · intro i hi
    rw [updateRecords_eq hst hup]
    rw [List.getElem?_append_left (by rw [List.length_map]; exact hi)]
    rw [List.getElem?_map]
    rw [List.getElem?_eq_getElem hi]
    rfl
  · rw [updateRecords_eq hst hup]
    rw [show store.length = (store.map (applyUpdates updates)).length from
      (List.length_map _ _).symm]
    exact List.drop_left _ _

/-- Witness for C9 at a concrete store and update batch: the updated
record stays at index 1, and the fresh update is appended. -/
theorem updateRecords_order_witness :
    (updateRecords
      [⟨"3", "t", some "", "https://b.example/3", "200", false, false, false, false, some false⟩,
       ⟨"4", "t", some "", "https://b.example/4", "200", false, false, false, false, some false⟩]
      [⟨"4", "t", some "7", "https://b.example/4", "200", true, false, true, false, some true⟩,
       ⟨"9", "t", some "", "https://b.example/9", "200", false, false, false, false, some false⟩])[1]? =
      some ⟨"4", "t", some "7", "https://b.example/4", "200", true, false, true, false, some true⟩ ∧
    (updateRecords
      [⟨"3", "t", some "", "https://b.example/3", "200", false, false, false, false, some false⟩,
       ⟨"4", "t", some "", "https://b.example/4", "200", false, false, false, false, some false⟩]
      [⟨"4", "t", some "7", "https://b.example/4", "200", true, false, true, false, some true⟩,
       ⟨"9", "t", some "", "https://b.example/9", "200", false, false, false, false, some false⟩]).drop 2 =
      [⟨"9", "t", some "", "https://b.example/9", "200", false, false, false, false, some false⟩] := by
  have h := updateRecords_order
    [⟨"3", "t", some "", "https://b.example/3", "200", false, false, false, false, some false⟩,
     ⟨"4", "t", some "", "https://b.example/4", "200", false, false, false, false, some false⟩]
    [⟨"4", "t", some "7", "https://b.example/4", "200", true, false, true, false, some true⟩,
     ⟨"9", "t", some "", "https://b.example/9", "200", false, false, false, false, some false⟩]
    (by decide) (by decide)
  constructor
  · rw [h.1 1 (by decide)]
    decide
  · have h2 := h.2
    have hlen : ([⟨"3", "t", some "", "https://b.example/3", "200", false, false, false, false,
        some false⟩,
      ⟨"4", "t", some "", "https://b.example/4", "200", false, false, false, false,
        some false⟩] : List UrlRecord).length = 2 := rfl
    rw [hlen] at h2
    rw [h2]
    decide

/-! ### The write/read round trip -/

/-- A cell free of the characters the plain CSV layer treats specially. -/
def CellOk (s : String) : Prop :=
  ∀ c ∈ s.data, c ≠ ',' ∧ c ≠ '\n' ∧ c ≠ '\r' ∧ c ≠ '\"'

instance (s : String) : Decidable (CellOk s) :=
  List.decidableBAll _ s.data

/-- Well-formed string cells of a record (the boolean cells are always
well formed). -/
def RecordCellsOk (r : UrlRecord) : Prop :=
  CellOk r.id ∧ CellOk r.source ∧ CellOk r.url ∧ CellOk r.dateAdded ∧
    CellOk (costCell r.cost)

instance (r : UrlRecord) : Decidable (RecordCellsOk r) := by
  unfold RecordCellsOk
  infer_instance

/-- The record produced by writing a record and reading it back: the cost
falls back to the empty string when absent, and archived to false unless
the written token was the literal true. -/
def reread (r : UrlRecord) : UrlRecord :=
  ⟨r.id, r.source, some (jsOrEmpty (costCell r.cost)), r.url, r.dateAdded,
   r.seen, r.ok, r.called, r.active, some (decide (r.archived = some true))⟩

theorem boolStr_cellOk (b : Bool) : CellOk (boolStr b) := by
  cases b <;> decide

theorem archivedCell_cellOk (a : Option Bool) : CellOk (archivedCell a) := by
  rcases a with _ | b
  · decide
  · cases b <;> decide

theorem rowCells_ok {r : UrlRecord} (h : RecordCellsOk r) :
    ∀ cell ∈ recordToRow r, CellOk cell := by
  intro cell hc
  unfold recordToRow at hc
  simp only [List.mem_cons, List.not_mem_nil, or_false] at hc
  rcases hc with rfl | rfl | rfl | rfl | rfl | rfl | rfl | rfl | rfl | rfl
  · exact h.1
  · exact h.2.1
  · exact h.2.2.2.2
  · exact h.2.2.1
  · exact h.2.2.2.1
  · exact boolStr_cellOk r.seen
  · exact boolStr_cellOk r.ok
  · exact boolStr_cellOk r.called
  · exact boolStr_cellOk r.active
  · exact archivedCell_cellOk r.archived

theorem splitSep_rowChars {row : List String} (h0 : row ≠ [])
    (h : ∀ cell ∈ row, CellOk cell) :
    splitSep ',' (rowChars row) = row.map String.data := by
  unfold rowChars
  refine splitSep_joinSep (by simpa using h0) ?_
  intro p hp hc
  rcases List.mem_map.mp hp with ⟨cell, hcm, he⟩
  exact ((h cell hcm) ',' (he ▸ hc)).1 rfl

theorem rowChars_no_newline {row : List String} (h : ∀ cell ∈ row, CellOk cell) :
    '\n' ∉ rowChars row := by
  intro hmem
  rcases mem_of_mem_joinSep hmem with he | ⟨p, hp, hcp⟩
  · exact absurd he (by decide)
  · rcases List.mem_map.mp hp with ⟨cell, hcm, he⟩
    exact ((h cell hcm) '\n' (he ▸ hcp)).2.1 rfl

theorem recordRow_ne_nil (r : UrlRecord) : rowChars (recordToRow r) ≠ [] := by
  show joinSep ',' (r.id.data :: r.source.data :: _) ≠ []
  simp [joinSep]

theorem joinSep_append_nil {sep : Char} {ls : List (List Char)} (h : ls ≠ []) :
    joinSep sep ls ++ [sep] = joinSep sep (ls ++ [[]]) := by
  induction ls with
  | nil => exact absurd rfl h
  | cons p ps ih =>
    cases ps with
    | nil => rfl
    | cons q qs =>
      show (p ++ sep :: joinSep sep (q :: qs)) ++ [sep] =
        p ++ sep :: joinSep sep ((q :: qs) ++ [[]])
      rw [List.append_assoc, List.cons_append, ← ih (by simp)]

theorem decide_boolStr_eq (b : Bool) : decide (boolStr b = "true") = b := by
  cases b <;> rfl

theorem decide_archivedCell_eq (a : Option Bool) :
    decide (archivedCell a = "true") = decide (a = some true) := by
  rcases a with _ | b
  · rfl
  · cases b <;> rfl

theorem rowToRecord_recordToRow (r : UrlRecord) :
    rowToRecord (recordToRow r) = some (reread r) := by
  show some ⟨r.id, r.source, some (jsOrEmpty (costCell r.cost)), r.url, r.dateAdded,
    decide (boolStr r.seen = "true"), decide (boolStr r.ok = "true"),
    decide (boolStr r.called = "true"), decide (boolStr r.active = "true"),
    some (decide (archivedCell r.archived = "true"))⟩ = some (reread r)
  rw [decide_boolStr_eq, decide_boolStr_eq, decide_boolStr_eq, decide_boolStr_eq,
    decide_archivedCell_eq]
  rfl

theorem decodeRows_map {records : List UrlRecord}
    (h : ∀ r ∈ records, RecordCellsOk r) :
    decodeRows ((records.map recordToRow).map rowChars) = some (records.map reread) := by
  induction records with
  | nil => rfl
  | cons r rs ih =>
    show decodeRows (rowChars (recordToRow r) :: (rs.map recordToRow).map rowChars) = _
    simp only [decodeRows]
    rw [splitSep_rowChars (by simp [recordToRow]) (rowCells_ok (h r (by simp)))]
    rw [List.map_map]
    rw [show (String.mk ∘ String.data) = id from funext (fun s => rfl), List.map_id]
    rw [rowToRecord_recordToRow, ih (fun x hx => h x (by simp [hx]))]
    rfl

/-- Round trip at the text level: stringifying a table of records with
well-formed cells and parsing it back yields the reread records. -/
theorem csvParse_csvStringify (records : List UrlRecord)
    (h : ∀ r ∈ records, RecordCellsOk r) :
    csvParse (csvStringify records) = some (records.map reread) := by
  have hlines : ∀ l ∈ (csvHeaderRow :: records.map recordToRow).map rowChars,
      '\n' ∉ l ∧ l ≠ [] := by
    intro l hl
    rcases List.mem_map.mp hl with ⟨row, hrm, he⟩
    rcases List.mem_cons.mp hrm with rfl | hm
    · exact ⟨he ▸ (by decide), he ▸ (by decide)⟩
    · rcases List.mem_map.mp hm with ⟨r, hr, he2⟩
      subst he2
      subst he
      exact ⟨rowChars_no_newline (rowCells_ok (h r hr)), recordRow_ne_nil r⟩
  unfold csvStringify csvParse
  rw [joinSep_append_nil (by simp)]
  rw [splitSep_joinSep (by simp) ?sepfree]
  case sepfree =>
    intro p hp
    rcases List.mem_append.mp hp with hm | hm
    · exact (hlines p hm).1
    · rcases List.mem_singleton.mp hm with rfl
      simp
  rw [List.filter_append]
  rw [List.filter_eq_self.mpr (fun l hl => by
    simp only [Bool.not_eq_true']
    rw [Bool.eq_false_iff]
    intro hemp
    exact (hlines l hl).2 (List.isEmpty_iff.mp hemp))]
  rw [show (([[]] : List (List Char)).filter (fun l => !l.isEmpty)) = [] from rfl]
  rw [List.append_nil, List.map_cons]
  show (if (splitSep ',' (rowChars csvHeaderRow)).map String.mk = csvHeaderRow
    then decodeRows ((records.map recordToRow).map rowChars) else none) = _
  rw [if_pos (by decide)]
  exact decodeRows_map h

theorem reread_eq_self {r : UrlRecord} (hc : r.cost ≠ none) (ha : r.archived ≠ none) :
    reread r = r := by
  rcases r with ⟨i, src, c, u, d, se, okb, ca, ac, ar⟩
  rcases c with _ | c
  · exact absurd rfl hc
  rcases ar with _ | b
  · exact absurd rfl ha
  unfold reread
  simp only []
  have h1 : jsOrEmpty (costCell (some c)) = c := by
    unfold costCell jsOrEmpty
    by_cases he : c = ""
    · rw [if_pos he, he]
    · rw [if_neg he]
  have h2 : decide ((some b : Option Bool) = some true) = b := by
    cases b <;> rfl
  rw [h1, h2]

/-- C7: writing a table of well-formed records (string cells free of
separators, boolean fields present) and reading it back returns an equal
record sequence, every boolean preserved through the true and false
tokens. -/
theorem readOp_writeOp_roundtrip (records : List UrlRecord)
    (h : ∀ r ∈ records, RecordCellsOk r ∧ r.cost ≠ none ∧ r.archived ≠ none) :
    readOp (writeOp none records) = .ok records := by
  show readOp (.ok (csvStringify records)) = .ok records
  simp only [readOp]
  rw [csvParse_csvStringify records (fun r hr => (h r hr).1)]
  rw [List.map_congr_left (fun r hr => reread_eq_self (h r hr).2.1 (h r hr).2.2)]
  simp

/-- Witness for C7 at a table exercising both boolean polarities. -/
theorem readOp_writeOp_roundtrip_witness :
    readOp (writeOp none
      [⟨"1", "sa", some "300", "https://c.example/1", "400", true, false, true, false, some true⟩,
       ⟨"2", "sb", some "", "https://c.example/2", "401", false, true, false, true, some false⟩]) =
    .ok
      [⟨"1", "sa", some "300", "https://c.example/1", "400", true, false, true, false, some true⟩,
       ⟨"2", "sb", some "", "https://c.example/2", "401", false, true, false, true, some false⟩] :=
  readOp_writeOp_roundtrip
    [⟨"1", "sa", some "300", "https://c.example/1", "400", true, false, true, false, some true⟩,
     ⟨"2", "sb", some "", "https://c.example/2", "401", false, true, false, true, some false⟩]
    (by decide)

theorem snd_mem_of_mem_enum {α : Type} {l : List α} {p : Nat × α} (hp : p ∈ l.enum) :
    p.2 ∈ l := by
  have h := List.enum_map_snd l
  rw [← h]
  exact List.mem_map_of_mem Prod.snd hp

/-- C10: drafts built by createUrlRecords share the batch timestamp, have
all flags false and carry neither cost nor archived; the records returned
by appendRecords still carry neither; and only after the table is written
and read back do these fields become the empty string and false. -/
theorem createUrlRecords_pipeline (source : String) (urls : List String) (timestamp : Nat)
    (store : List UrlRecord)
    (hcells : ∀ r ∈ (appendRecords store (createUrlRecords source urls timestamp)).1,
      RecordCellsOk r) :
    (∀ d ∈ createUrlRecords source urls timestamp,
      d.cost = none ∧ d.archived = none ∧ d.seen = false ∧ d.ok = false ∧
      d.called = false ∧ d.active = false ∧ d.source = source ∧
      d.dateAdded = toString timestamp) ∧
    (∀ r ∈ (appendRecords store (createUrlRecords source urls timestamp)).2,
      r.cost = none ∧ r.archived = none) ∧
    readOp (writeOp none (appendRecords store (createUrlRecords source urls timestamp)).1) =
      .ok ((appendRecords store (createUrlRecords source urls timestamp)).1.map reread) ∧
    (∀ r ∈ (appendRecords store (createUrlRecords source urls timestamp)).2,
      (reread r).cost = some "" ∧ (reread r).archived = some false) := by
  have hdraft : ∀ d ∈ createUrlRecords source urls timestamp,
      d.cost = none ∧ d.archived = none ∧ d.seen = false ∧ d.ok = false ∧
      d.called = false ∧ d.active = false ∧ d.source = source ∧
      d.dateAdded = toString timestamp := by
    intro d hd
    rcases List.mem_map.mp hd with ⟨url, _, he⟩
    rw [← he]
    exact ⟨rfl, rfl, rfl, rfl, rfl, rfl, rfl, rfl⟩
  have hnew : ∀ r ∈ (appendRecords store (createUrlRecords source urls timestamp)).2,
      r.cost = none ∧ r.archived = none := by
    intro r hr
    rcases List.mem_map.mp hr with ⟨p, hp, he⟩
    have hd := hdraft p.2 (snd_mem_of_mem_enum hp)
    rw [← he]
    exact ⟨hd.1, hd.2.1⟩
  refine ⟨hdraft, hnew, ?_, ?_⟩
  · show readOp (.ok (csvStringify _)) = _
    simp only [readOp]
    rw [csvParse_csvStringify _ hcells]
  · intro r hr
    have h2 := hnew r hr
    constructor
    · show some (jsOrEmpty (costCell r.cost)) = some ""
      rw [h2.1]
      rfl
    · show some (decide (r.archived = some true)) = some false
      rw [h2.2]
      rfl

/-- Witness for C10 on an empty store and one extracted URL. -/
theorem createUrlRecords_pipeline_witness :
    readOp (writeOp none
        (appendRecords [] (createUrlRecords "src" ["https://d.example/1"] 500)).1) =
      .ok ((appendRecords []
        (createUrlRecords "src" ["https://d.example/1"] 500)).1.map reread) :=
  (createUrlRecords_pipeline "src" ["https://d.example/1"] 500 [] (by decide)).2.2.1

end FlatCrawl
